import Mathlib

/-! termloop: canvas, screen and game-loop core.

A shallow embedding of `termloop.go`, `screen.go`, `input.go` and `game.go`.

* Go slices are lists.  A slice index that is out of range, and a `make`
  with a negative length, is a run-time panic: functions that can panic
  return `Option`, and `none` is the panic.
* `Attr` (a `tcell.Color`, an unsigned 64-bit value) is a `Nat` and `rune`
  (a signed 32-bit value) is an `Int`; only equality and the test against
  zero are ever applied to them.
* Go `int` values are `Int`; the one place where the program adds two of
  them (`RenderCell`) wraps at 64 bits through `wrapInt`.
-/

namespace Termloop

/-! ## Cells and canvases (`termloop.go`) -/

/-- Cell colour attribute, `type Attr tcell.Color`. -/
abbrev Attr := Nat

/-- A Go `rune`. -/
abbrev Rune := Int

/-- Represents a character to be drawn on the screen (`type Cell struct`). -/
structure Cell where
  Fg : Attr
  Bg : Attr
  Ch : Rune
deriving DecidableEq, Repr

/-- The zero value of `Cell`: what `make([]Cell, n)` fills a column with. -/
def Cell.zero : Cell := { Fg := 0, Bg := 0, Ch := 0 }

instance : Inhabited Cell := ⟨Cell.zero⟩

/-- A Canvas is an array of columns, addressed `canvas[x][y]`.  The value is a
non-nil slice; where the program distinguishes the nil slice (the argument of
`equals`, the field `oldCanvas`) the type is `Option Canvas` and `none` is nil.
Everywhere else a nil canvas behaves as the empty one (`len` is 0, `range`
does not iterate). -/
abbrev Canvas := List (List Cell)

/-- The cell `canvas[x][y]`, `none` when either index is out of range. -/
def Canvas.cellAt (cv : Canvas) (x y : Nat) : Option Cell :=
  match cv[x]? with
  | none => none
  | some col => col[y]?

/-- A canvas is rectangular with `W` columns of `H` cells each. -/
def Canvas.isRect (c : Canvas) (W H : Nat) : Prop :=
  c.length = W ∧ ∀ col ∈ c, col.length = H

instance (c : Canvas) (W H : Nat) : Decidable (c.isRect W H) := by
  unfold Canvas.isRect; exact inferInstance

/-- Source `NewCanvas(width, height)`: `make(Canvas, width)` and then one
`make([]Cell, height)` per column.  `make` panics on a negative length; with
`width = 0` the loop body never runs and `height` is not looked at. -/
def NewCanvas (width height : Int) : Option Canvas :=
  if width < 0 then none
  else if width = 0 then some []
  else if height < 0 then none
  else some (List.replicate width.toNat (List.replicate height.toNat Cell.zero))

/-- Source `(c *Cell) equals(c2 *Cell)`. -/
def Cell.equals (c c2 : Cell) : Bool :=
  c.Fg == c2.Fg && c.Bg == c2.Bg && c.Ch == c2.Ch

/-- The inner loop of `Canvas.equals`, `for j := range c[i]`, from index `j`
on: `col` is what is left of `c[i]`, `col2` is `c2[i]`, and `c2[i][j]` panics
when `j` is out of range. -/
def equalsCol (col2 : List Cell) : Nat → List Cell → Option Bool
  | _, [] => some true
  | j, a :: rest =>
    match col2[j]? with
    | none => none
    | some b => if a.equals b then equalsCol col2 (j + 1) rest else some false

/-- The outer loop of `Canvas.equals`, `for i := range c`, from index `i` on. -/
def equalsCols (c2 : Canvas) : Nat → List (List Cell) → Option Bool
  | _, [] => some true
  | i, col :: rest =>
    match c2[i]? with
    | none => none
    | some col2 =>
      match equalsCol col2 0 col with
      | none => none
      | some false => some false
      | some true => equalsCols c2 (i + 1) rest

/-- Source `(canvas *Canvas) equals(oldCanvas *Canvas)`.  `none` is the
index-out-of-range panic of `c[0]`, `c2[0]` or `c2[i][j]`. -/
def Canvas.equals (cv : Canvas) (oldCanvas : Option Canvas) : Option Bool :=
  match oldCanvas with
  | none => some false
  | some c2 =>
    if cv.length ≠ c2.length then some false
    else
      match cv[0]?, c2[0]? with
      | some c0, some d0 =>
        if c0.length ≠ d0.length then some false else equalsCols c2 0 cv
      | _, _ => none

/-- Source `renderCell(old, new_ *Cell)`: the value of `*old` afterwards. -/
def renderCell (old new_ : Cell) : Cell :=
  let old := if new_.Ch ≠ 0 then { old with Ch := new_.Ch } else old
  let old := if new_.Bg ≠ 0 then { old with Bg := new_.Bg } else old
  let old := if new_.Fg ≠ 0 then { old with Fg := new_.Fg } else old
  old

/-- Source `min(a, b int)`. -/
def minInt (a b : Int) : Int := if a < b then a else b

/-- Source `max(a, b int)`. -/
def maxInt (a b : Int) : Int := if a > b then a else b

/-- The assignment `canvas[x][y] = v`; `none` is the index-out-of-range panic. -/
def Canvas.setCell (cv : Canvas) (x y : Nat) (v : Cell) : Option Canvas :=
  match cv[x]? with
  | none => none
  | some col => if y < col.length then some (cv.set x (col.set y v)) else none

/-- Go `strings.Split(s, "\n")` on the characters of a string: the pieces
between consecutive newlines, always at least one piece. -/
def splitLines : List Char → List (List Char)
  | [] => [[]]
  | ch :: rest =>
    if ch = '\n' then [] :: splitLines rest
    else
      match splitLines rest with
      | [] => [[ch]]
      | row :: rows => (ch :: row) :: rows

/-- The rows put together again with one newline between neighbours (Go
`strings.Join(rows, "\n")`). -/
def joinLines : List (List Char) → List Char
  | [] => []
  | [row] => row
  | row :: next :: rows => row ++ '\n' :: joinLines (next :: rows)

/-- The rune of a character, as `[]rune(line)` yields it. -/
def runeOf (ch : Char) : Rune := Int.ofNat ch.toNat

/-- Source `CanvasFromString(str)`.  `str` is a string of Unicode characters
(a Go string that is valid UTF-8).  The two nested loops assign each
`canvas[i][j]` at most once, so the canvas is given cell by cell; `runes[j]`
and `runes[j][i]` are read inside their bounds only. -/
def CanvasFromString (str : String) : Canvas :=
  let lines := splitLines str.data
  let runes := lines.map (fun l => l.map runeOf)
  let width := runes.foldl (fun w r => maxInt w r.length) 0
  let height := runes.length
  (List.range width.toNat).map fun i =>
    (List.range height).map fun j =>
      let row := runes.getD j []
      if i < row.length then { Fg := 0, Bg := 0, Ch := row.getD i 0 } else Cell.zero

/-! ## The screen (`screen.go`) -/

/-- Width of a Go `int` in bits. -/
def intBits : Nat := 64

/-- The value a Go `int` holds after an arithmetic result `n`: two's
complement wrap-around into `[-2^63, 2^63)`. -/
def wrapInt (n : Int) : Int :=
  (n + 2 ^ (intBits - 1)) % 2 ^ intBits - 2 ^ (intBits - 1)

/-- A `Drawable` interface value holding a pointer: the number is the identity
of the object, and `==` on two such values compares identities. -/
abbrev Drawable := Nat

/-- A `Level` interface value holding a pointer, by the identity of the object. -/
abbrev Level := Nat

/-- A `tcell.Event` that is not nil. -/
inductive TcellEvent where
  | key (k : Nat)
  | resize (w h : Int)
  | error (msg : String)
  | other (tag : Nat)
deriving DecidableEq, Repr

/-- Source `type Event tcell.Event`, an interface value: `none` is nil. -/
abbrev Event := Option TcellEvent

/-- Source `type Screen struct`.  The embedded `tcell.Screen` (the driver) is
kept outside, as the record of the calls made on it (`World.trace`); `delta`
and `fps` are floating-point fields that none of the functions below reads. -/
structure Screen where
  oldCanvas : Option Canvas
  canvas : Canvas
  level : Option Level
  Entities : List Drawable
  width : Int
  height : Int
  offsetx : Int
  offsety : Int
deriving DecidableEq, Repr

/-- Source `NewScreenWithScreen(s)`: every field not named is zero. -/
def NewScreenWithScreen : Option Screen :=
  match NewCanvas 10 10 with
  | none => none
  | some cv =>
    some { oldCanvas := none, canvas := cv, level := none, Entities := [],
           width := 0, height := 0, offsetx := 0, offsety := 0 }

/-- The inner loop of `resize` for column `i`,
`for j := 0; j < n; j++ { c[i][j] = s.canvas[i][j] }`. -/
def resizeCol (old : Canvas) (i n : Nat) (cv : Canvas) : Option Canvas :=
  (List.range n).foldlM
    (fun acc j =>
      match old.cellAt i j with
      | none => none
      | some v => acc.setCell i j v)
    cv

/-- Source `(s *Screen) resize(w, h)`.  The bound of the inner loop reads
`s.canvas[0]` each time the body of the outer loop is entered. -/
def Screen.resize (s : Screen) (w h : Int) : Option Screen :=
  let s := { s with width := w, height := h }
  match NewCanvas s.width s.height with
  | none => none
  | some cv =>
    let r := (List.range (minInt s.width s.canvas.length).toNat).foldlM
      (fun acc i =>
        match s.canvas[0]? with
        | none => none
        | some col0 => resizeCol s.canvas i (minInt s.height col0.length).toNat acc)
      cv
    match r with
    | none => none
    | some cv2 => some { s with canvas := cv2 }

/-- Source `(s *Screen) AddEntity(d)`. -/
def Screen.AddEntity (s : Screen) (d : Drawable) : Screen :=
  { s with Entities := s.Entities ++ [d] }

/-- Source `(s *Screen) RemoveEntity(d)`: the loop stops at the first index
`i` with `elem == d` and stores `append(s.Entities[:i], s.Entities[i+1:]...)`. -/
def Screen.RemoveEntity (s : Screen) (d : Drawable) : Screen :=
  match s.Entities.findIdx? (fun elem => elem == d) with
  | none => s
  | some i => { s with Entities := s.Entities.take i ++ s.Entities.drop (i + 1) }

/-- Source `(s *Screen) setOffset(x, y)`. -/
def Screen.setOffset (s : Screen) (x y : Int) : Screen :=
  { s with offsetx := x, offsety := y }

/-- Source `(s *Screen) SetLevel(l)`; `none` is the nil level. -/
def Screen.SetLevel (s : Screen) (l : Option Level) : Screen :=
  { s with level := l }

/-- Source `(s *Screen) RenderCell(x, y, c)`.  The condition is evaluated left
to right and stops at the first false conjunct, so `s.canvas[0]` is read only
after `0 <= newx < len(s.canvas)` and `newy >= 0` held. -/
def Screen.RenderCell (s : Screen) (x y : Int) (c : Cell) : Option Screen :=
  let newx := wrapInt (x + s.offsetx)
  let newy := wrapInt (y + s.offsety)
  if 0 ≤ newx ∧ newx < s.canvas.length ∧ 0 ≤ newy then
    match s.canvas[0]? with
    | none => none
    | some col0 =>
      if newy < col0.length then
        match s.canvas.cellAt newx.toNat newy.toNat with
        | none => none
        | some old =>
          match s.canvas.setCell newx.toNat newy.toNat (renderCell old c) with
          | none => none
          | some cv => some { s with canvas := cv }
      else some s
  else some s

/-! ## The screen together with its collaborators

The level, the drawables and the terminal driver are interface values whose
code is not part of the screen.  A `World` holds the screen, the state of the
application objects behind those interfaces, and the record of every call the
screen makes on a collaborator, in the order made.

A level or a drawable may hold the `*Screen` (painters are handed it), so a
callback can call the exported methods of the screen while the screen runs
through its list.  A `Tick` callback may call `AddEntity`, `RemoveEntity` and
`SetLevel`; a painter may call these and `RenderCell` and `setOffset`.  A
callback that calls `Tick` or `Draw` of the screen again, and a `Tick` that
renders cells, are outside the model.

`s.Entities` is a slice.  `for _, e := range s.Entities` takes the slice once
and then reads slot `i` of its array in iteration `i`, for as many iterations
as the slice was long.  `RemoveEntity` moves the later elements down inside
that array, and `AddEntity` writes into it while it has room and moves to a
new array when it has none; the loop sees what is written into the array it
ranges over.  The world therefore also holds the slots of the array behind
`s.Entities` that lie past its length. -/

/-- A call the screen makes on a collaborator. -/
inductive Call where
  | levelTick (l : Level) (ev : Event)
  | entityTick (d : Drawable) (ev : Event)
  | levelDrawBackground (l : Level)
  | levelDraw (l : Level)
  | entityDraw (d : Drawable)
  | SetContent (x y : Nat) (ch : Rune) (fg bg : Attr)
  | Show
deriving DecidableEq, Repr

/-- A method of the screen that changes what is attached to it; a callback of
either kind may call it.  `SetLevel none` passes the nil level. -/
inductive SceneOp where
  | AddEntity (d : Drawable)
  | RemoveEntity (d : Drawable)
  | SetLevel (l : Option Level)
deriving DecidableEq, Repr

/-- A method a painter calls on the screen it is given. -/
inductive ScreenOp where
  | RenderCell (x y : Int) (c : Cell)
  | setOffset (x y : Int)
  | scene (op : SceneOp)
deriving DecidableEq, Repr

/-- The behaviour of the application objects over their state `α`: for each
level and drawable, which screen methods its `Tick` and its painting methods
call, given the state and the screen at the time of the call, and the state
they leave.  `growCap` is the capacity the runtime gives the new array when
`append` outgrows an array of the given capacity. -/
structure App (α : Type) where
  levelTick : Level → Event → α → Screen → List SceneOp × α
  levelDrawBackground : Level → α → Screen → List ScreenOp × α
  levelDraw : Level → α → Screen → List ScreenOp × α
  entityTick : Drawable → Event → α → Screen → List SceneOp × α
  entityDraw : Drawable → α → Screen → List ScreenOp × α
  growCap : Nat → Nat

/-- The screen, the application state and the calls made so far.  `spare`
holds the slots of the array of `s.Entities` just past its length that have
been written (left behind by `RemoveEntity`), and `free` counts the slots
after those, up to the capacity. -/
structure World (α : Type) where
  screen : Screen
  app : α
  trace : List Call
  spare : List Drawable := []
  free : Nat := 0

/-- One method of the screen that changes what is attached to it. -/
def SceneOp.apply (op : SceneOp) (s : Screen) : Screen :=
  match op with
  | .AddEntity d => s.AddEntity d
  | .RemoveEntity d => s.RemoveEntity d
  | .SetLevel l => s.SetLevel l

/-- One screen method called by a painter. -/
def ScreenOp.apply (op : ScreenOp) (s : Screen) : Option Screen :=
  match op with
  | .RenderCell x y c => s.RenderCell x y c
  | .setOffset x y => some (s.setOffset x y)
  | .scene op => some (op.apply s)

/-- The screen methods called by a painter, in order. -/
def runOps : List ScreenOp → Screen → Option Screen
  | [], s => some s
  | op :: rest, s =>
    match op.apply s with
    | none => none
    | some s2 => runOps rest s2

/-- The written slots of the array behind `s.Entities`. -/
def World.array {α : Type} (w : World α) : List Drawable :=
  w.screen.Entities ++ w.spare

/-- The same call as `SceneOp.apply`, with its effect on the array behind
`s.Entities`.  `append(s.Entities, d)` writes into the slot after the last
element when the array has one, and else moves the elements to a new array
of capacity `growCap`; `append(s.Entities[:i], s.Entities[i+1:]...)` moves
the elements after `i` down one slot and leaves the last slot as it was. -/
def World.sceneOp {α : Type} (A : App α) (op : SceneOp) (w : World α) : World α :=
  match op with
  | .AddEntity d =>
    { w with
      screen := w.screen.AddEntity d
      spare := w.spare.tail
      free :=
        if w.spare.isEmpty then
          (if w.free = 0 then
            A.growCap w.screen.Entities.length - (w.screen.Entities.length + 1)
           else w.free - 1)
        else w.free }
  | .RemoveEntity d =>
    { w with
      screen := w.screen.RemoveEntity d
      spare :=
        (if d ∈ w.screen.Entities then w.screen.Entities.getLast?.toList else [])
          ++ w.spare }
  | .SetLevel l => { w with screen := w.screen.SetLevel l }

/-- The call moves `s.Entities` to a new array. -/
def SceneOp.reallocates {α : Type} (op : SceneOp) (w : World α) : Bool :=
  match op with
  | .AddEntity _ => w.spare.isEmpty && w.free == 0
  | _ => false

/-- What a running `range` loop knows of the array it ranges over: `none`
while `s.Entities` still lives in that array, and the slots of the array as
they were left once `s.Entities` has moved to a new one. -/
abbrev Frozen := Option (List Drawable)

/-- The state of a loop over `s.Entities`: the array it ranges over and the
world. -/
abbrev LoopState (α : Type) := Frozen × World α

/-- The array a running loop reads. -/
def LoopState.view {α : Type} (st : LoopState α) : List Drawable :=
  match st.1 with
  | some arr => arr
  | none => st.2.array

/-- One `AddEntity`, `RemoveEntity` or `SetLevel` called while a loop runs. -/
def World.sceneStep {α : Type} (A : App α) (st : LoopState α) (op : SceneOp) :
    LoopState α :=
  ((match st.1 with
    | some arr => some arr
    | none => if op.reallocates st.2 then some st.2.array else none),
   st.2.sceneOp A op)

/-- The screen methods called by a `Tick` callback, in order. -/
def runScene {α : Type} (A : App α) (ops : List SceneOp) (st : LoopState α) :
    LoopState α :=
  ops.foldl (World.sceneStep A) st

/-- The screen methods called by a painter while a loop runs, in order. -/
def runPaint {α : Type} (A : App α) : List ScreenOp → LoopState α → Option (LoopState α)
  | [], st => some st
  | ScreenOp.scene op :: rest, st => runPaint A rest (World.sceneStep A st op)
  | op :: rest, st =>
    match op.apply st.2.screen with
    | none => none
    | some s2 => runPaint A rest (st.1, { st.2 with screen := s2 })

/-- One call of a painting method `p` (recorded as `call`) on the screen. -/
def paint {α : Type} (A : App α) (p : α → Screen → List ScreenOp × α) (call : Call)
    (st : LoopState α) : Option (LoopState α) :=
  let r := p st.2.app st.2.screen
  runPaint A r.1 (st.1, { st.2 with app := r.2, trace := st.2.trace ++ [call] })

/-- One call of a `Tick` method `p` (recorded as `call`). -/
def tickCall {α : Type} (A : App α) (p : α → Screen → List SceneOp × α) (call : Call)
    (st : LoopState α) : LoopState α :=
  let r := p st.2.app st.2.screen
  runScene A r.1 (st.1, { st.2 with app := r.2, trace := st.2.trace ++ [call] })

/-- Source `for _, e := range s.Entities { body }`, from iteration `i` on with
`k` iterations to go: each iteration reads slot `i` of the array the loop
ranges over, as it is then. -/
def rangeEntities {α : Type} (body : Drawable → LoopState α → Option (LoopState α)) :
    Nat → Nat → LoopState α → Option (World α)
  | 0, _, st => some st.2
  | k + 1, i, st =>
    match st.view[i]? with
    | none => none
    | some e =>
      match body e st with
      | none => none
      | some st2 => rangeEntities body k (i + 1) st2

/-- The call `s.level.Tick(ev)` of `Tick`, made when a level is attached. -/
def Screen.tickLevel {α : Type} (A : App α) (w : World α) (ev : Event) : World α :=
  match w.screen.level with
  | some l => (tickCall A (A.levelTick l ev) (Call.levelTick l ev) (none, w)).2
  | none => w

/-- One call `e.Tick(ev)` on a drawable. -/
def tickEntity {α : Type} (A : App α) (ev : Event) (e : Drawable) (st : LoopState α) :
    Option (LoopState α) :=
  some (tickCall A (A.entityTick e ev) (Call.entityTick e ev) st)

/-- Source `(s *Screen) Tick(ev)`. -/
def Screen.Tick {α : Type} (A : App α) (w : World α) (ev : Event) : Option (World α) :=
  let w1 := Screen.tickLevel A w ev
  if ev ≠ none then
    rangeEntities (tickEntity A ev) w1.screen.Entities.length 0 (none, w1)
  else some w1

/-- Source `termboxNormal(canvas, s)`: one `SetContent` per cell, column by
column. -/
def termboxNormal (cv : Canvas) : List Call :=
  (cv.enum.map fun ic =>
    ic.2.enum.map fun jc => Call.SetContent ic.1 jc.1 jc.2.Ch jc.2.Fg jc.2.Bg).flatten

/-- A painting call made outside a loop. -/
def paintOnce {α : Type} (A : App α) (p : α → Screen → List ScreenOp × α) (call : Call)
    (w : World α) : Option (World α) :=
  (paint A p call (none, w)).map Prod.snd

/-- One call `e.Draw(s)` on a drawable. -/
def drawEntity {α : Type} (A : App α) (e : Drawable) (st : LoopState α) :
    Option (LoopState α) :=
  paint A (A.entityDraw e) (Call.entityDraw e) st

/-- The painting calls of `Draw`, on the screen that holds the new canvas:
when a level is attached, `s.level.DrawBackground(s)` and then
`s.level.Draw(s)` on the level attached by then (a nil level there is a nil
dereference); then the loop over `s.Entities`. -/
def Screen.paintAll {α : Type} (A : App α) (w : World α) : Option (World α) :=
  let w1 :=
    match w.screen.level with
    | some l =>
      match paintOnce A (A.levelDrawBackground l) (Call.levelDrawBackground l) w with
      | none => none
      | some w2 =>
        match w2.screen.level with
        | none => none
        | some l2 => paintOnce A (A.levelDraw l2) (Call.levelDraw l2) w2
    | none => some w
  match w1 with
  | none => none
  | some w2 => rangeEntities (drawEntity A) w2.screen.Entities.length 0 (none, w2)

/-- The part of `Draw` that paints: `s.canvas = NewCanvas(s.width, s.height)`
and then the painting calls. -/
def Screen.drawPaint {α : Type} (A : App α) (w : World α) : Option (World α) :=
  match NewCanvas w.screen.width w.screen.height with
  | none => none
  | some cv => Screen.paintAll A { w with screen := { w.screen with canvas := cv } }

/-- The painting calls `Draw` makes on a screen whose level and entities stay
as they are during the call, in order. -/
def paintCalls (s : Screen) : List Call :=
  (match s.level with
   | some l => [Call.levelDrawBackground l, Call.levelDraw l]
   | none => []) ++ s.Entities.map Call.entityDraw

/-- What rendering leaves alone: every field but the canvas and the offset. -/
def Screen.sameFrame (s s2 : Screen) : Prop :=
  s2.oldCanvas = s.oldCanvas ∧ s2.level = s.level ∧ s2.Entities = s.Entities ∧
  s2.width = s.width ∧ s2.height = s.height

/-- What `AddEntity`, `RemoveEntity` and `SetLevel` leave alone. -/
def Screen.sameCanvas (s s2 : Screen) : Prop :=
  s2.canvas = s.canvas ∧ s2.oldCanvas = s.oldCanvas ∧ s2.width = s.width ∧
  s2.height = s.height ∧ s2.offsetx = s.offsetx ∧ s2.offsety = s.offsety

/-- What no callback can change: the previous canvas and the size. -/
def Screen.sameSize (s s2 : Screen) : Prop :=
  s2.oldCanvas = s.oldCanvas ∧ s2.width = s.width ∧ s2.height = s.height

/-- The method is `RenderCell` or `setOffset`. -/
def ScreenOp.renders : ScreenOp → Bool
  | .scene _ => false
  | _ => true

/-- Painters that only render: none of them calls `AddEntity`, `RemoveEntity`
or `SetLevel`. -/
def App.rendersOnly {α : Type} (A : App α) : Prop :=
  (∀ l a s, ∀ op ∈ (A.levelDrawBackground l a s).1, op.renders = true) ∧
  (∀ l a s, ∀ op ∈ (A.levelDraw l a s).1, op.renders = true) ∧
  (∀ e a s, ∀ op ∈ (A.entityDraw e a s).1, op.renders = true)

/-- Painting methods that call the same screen methods on every call,
whatever the application state and the screen they are given. -/
def App.paintsTheSame {α : Type} (A : App α) (bg fg : Level → List ScreenOp)
    (ent : Drawable → List ScreenOp) : Prop :=
  (∀ l a s, (A.levelDrawBackground l a s).1 = bg l) ∧
  (∀ l a s, (A.levelDraw l a s).1 = fg l) ∧
  (∀ e a s, (A.entityDraw e a s).1 = ent e)

/-- The calls of a flush: the cells of the canvas, then `Show`. -/
def flushCalls (cv : Canvas) : List Call := termboxNormal cv ++ [Call.Show]

/-- Source `(s *Screen) Draw()`. -/
def Screen.Draw {α : Type} (A : App α) (w : World α) : Option (World α) :=
  match Screen.drawPaint A w with
  | none => none
  | some w =>
    match w.screen.canvas.equals w.screen.oldCanvas with
    | none => none
    | some eq =>
      let w := if !eq then { w with trace := w.trace ++ flushCalls w.screen.canvas } else w
      some { w with screen := { w.screen with oldCanvas := some w.screen.canvas } }

/-- An application with no level or drawable behaviour: no callback calls a
method of the screen.  Its arrays double on growth. -/
def App.idle : App Unit :=
  { levelTick := fun _ _ a _ => ([], a)
    levelDrawBackground := fun _ a _ => ([], a)
    levelDraw := fun _ a _ => ([], a)
    entityTick := fun _ _ a _ => ([], a)
    entityDraw := fun _ a _ => ([], a)
    growCap := fun n => 2 * n + 1 }

/-- An application whose drawable `1` removes itself from the screen in its
`Tick` and in its `Draw`; every drawable renders its number as the glyph of
cell `(0, 0)`. -/
def App.leaver : App Unit :=
  { levelTick := fun _ _ a _ => ([], a)
    levelDrawBackground := fun _ a _ => ([], a)
    levelDraw := fun _ a _ => ([], a)
    entityTick := fun e _ a _ => (if e = 1 then [SceneOp.RemoveEntity 1] else [], a)
    entityDraw := fun e a _ =>
      ((if e = 1 then [ScreenOp.scene (SceneOp.RemoveEntity 1)] else [])
        ++ [ScreenOp.RenderCell 0 0 ⟨0, 0, Int.ofNat e⟩], a)
    growCap := fun n => 2 * n + 1 }

/-- An application whose painters only render, all into cell `(0, 0)`: the
foreground of every level writes glyph 65 and foreground colour 3, drawable
`1` writes glyph 66 and every other drawable writes background colour 4. -/
def App.layers : App Unit :=
  { levelTick := fun _ _ a _ => ([], a)
    levelDrawBackground := fun _ a _ => ([], a)
    levelDraw := fun _ a _ => ([ScreenOp.RenderCell 0 0 ⟨3, 0, 65⟩], a)
    entityTick := fun _ _ a _ => ([], a)
    entityDraw := fun e a _ =>
      (if e = 1 then [ScreenOp.RenderCell 0 0 ⟨0, 0, 66⟩]
       else [ScreenOp.RenderCell 0 0 ⟨0, 4, 0⟩], a)
    growCap := fun n => 2 * n + 1 }

/-- The frame after `n` consecutive calls of `Draw`. -/
def Screen.drawN {α : Type} (A : App α) : Nat → World α → Option (World α)
  | 0, w => some w
  | n + 1, w =>
    match Screen.Draw A w with
    | none => none
    | some w2 => Screen.drawN A n w2

/-- The cells that the `RenderCell` calls among `ops` merge into the canvas
cell `(x0, y0)`, in call order, when the offset is `(ox, oy)` at the start. -/
def hits : List ScreenOp → Int → Int → Nat → Nat → List Cell
  | [], _, _, _, _ => []
  | ScreenOp.setOffset a b :: rest, _, _, x0, y0 => hits rest a b x0 y0
  | ScreenOp.RenderCell x y c :: rest, ox, oy, x0, y0 =>
    (if wrapInt (x + ox) = x0 ∧ wrapInt (y + oy) = y0 then [c] else [])
      ++ hits rest ox oy x0 y0
  | ScreenOp.scene _ :: rest, ox, oy, x0, y0 => hits rest ox oy x0 y0

/-- A list of screen methods is what the painting method behind `call`
returns for some application state and screen. -/
def issuedBy {α : Type} (A : App α) (call : Call) (ops : List ScreenOp) : Prop :=
  match call with
  | Call.levelDrawBackground l => ∃ a s, ops = (A.levelDrawBackground l a s).1
  | Call.levelDraw l => ∃ a s, ops = (A.levelDraw l a s).1
  | Call.entityDraw e => ∃ a s, ops = (A.entityDraw e a s).1
  | _ => False

/-! ## The game (`game.go`, `input.go`)

The input pump is a goroutine that forwards driver events into a channel; the
loop sees it as what the non-blocking receive yields in each iteration.  Time
enters the loop as the time stamp of a log line; the sleep at the end of an
iteration and the field `delta` are floating-point values and are left out. -/

/-- A `tcell.Key`. -/
abbrev Key := Nat

/-- The tcell key code of Ctrl-C (the control character ETX).  The constant is
declared by the terminal library; the proofs use only that it differs from
`KeyEsc`. -/
def KeyCtrlC : Key := 3

/-- The tcell key code of the escape key (the control character ESC). -/
def KeyEsc : Key := 27

/-- Source `type input struct`; the two channels belong to the input pump. -/
structure Input where
  endKey : Key
deriving DecidableEq, Repr

/-- Source `newInput()`. -/
def newInput : Input := { endKey := KeyCtrlC }

/-- A method the loop calls on the screen or the game. -/
inductive GameCall where
  | tick (ev : Event)
  | resize (w h : Int)
  | log (msg : String)
  | draw
deriving DecidableEq, Repr

/-- Source `type Game struct`.  `screen` is the screen together with its
collaborators; `calls` records the methods the loop has called, in order. -/
structure Game (α : Type) where
  screen : World α
  input : Input
  debug : Bool
  logs : List String
  calls : List GameCall

/-- Source `NewGame()`; `screenErr` says whether `tcell.NewScreen()` returned
an error, on which `NewGame` panics. -/
def NewGame {α : Type} (app0 : α) (screenErr : Bool) : Option (Game α) :=
  if screenErr then none
  else
    match NewScreenWithScreen with
    | none => none
    | some s =>
      some { screen := { screen := s, app := app0, trace := [] }, input := newInput,
             debug := false, logs := [], calls := [] }

/-- Source `(g *Game) SetEndKey(key)`. -/
def Game.SetEndKey {α : Type} (g : Game α) (key : Key) : Game α :=
  { g with input := { g.input with endKey := key } }

/-- Source `(g *Game) Log(log, items...)`: `stamp` is the formatted time and
`text` is what `fmt.Sprintf(log, items...)` returns. -/
def Game.Log {α : Type} (g : Game α) (stamp text : String) : Game α :=
  { g with logs := g.logs ++ ["[" ++ stamp ++ "] " ++ text] }

/-- What the `select` of one iteration finds: nothing in the queue (the
`default` branch) or an event, which may be the nil interface value. -/
inductive Polled where
  | empty
  | received (ev : Event)
deriving DecidableEq, Repr

/-- What one iteration takes from outside: the result of the receive and the
time stamp a log line would carry. -/
structure Iter where
  polled : Polled
  stamp : String
deriving DecidableEq, Repr

/-- How an iteration ends: the loop is left (`break mainloop`) or goes on. -/
inductive Outcome (α : Type) where
  | stopped (g : Game α)
  | running (g : Game α)

/-- The call `g.screen.Draw()` that ends an iteration. -/
def Game.drawStep {α : Type} (A : App α) (g : Game α) : Option (Outcome α) :=
  match Screen.Draw A g.screen with
  | none => none
  | some w => some (Outcome.running { g with screen := w, calls := g.calls ++ [GameCall.draw] })

/-- One iteration of `mainloop` in `Start`: the `select` with its type switch,
then `Draw`.  `sprintf` is `fmt.Sprintf` applied to a format without operands. -/
def Game.step {α : Type} (sprintf : String → String) (A : App α) (g : Game α)
    (it : Iter) : Option (Outcome α) :=
  match it.polled with
  | Polled.received (some (TcellEvent.key k)) =>
    if k = g.input.endKey then some (Outcome.stopped g)
    else
      match Screen.Tick A g.screen (some (TcellEvent.key k)) with
      | none => none
      | some w =>
        Game.drawStep A
          { g with screen := w,
                   calls := g.calls ++ [GameCall.tick (some (TcellEvent.key k))] }
  | Polled.received (some (TcellEvent.resize w h)) =>
    match g.screen.screen.resize w h with
    | none => none
    | some s =>
      Game.drawStep A
        { g with screen := { g.screen with screen := s },
                 calls := g.calls ++ [GameCall.resize w h] }
  | Polled.received (some (TcellEvent.error msg)) =>
    Game.drawStep A
      { Game.Log g it.stamp (sprintf msg) with calls := g.calls ++ [GameCall.log msg] }
  | Polled.received _ => Game.drawStep A g
  | Polled.empty =>
    match Screen.Tick A g.screen none with
    | none => none
    | some w =>
      Game.drawStep A { g with screen := w, calls := g.calls ++ [GameCall.tick none] }

/-- The loop `mainloop` over the iterations whose inputs are given; when the
inputs end the loop is still running. -/
def Game.loop {α : Type} (sprintf : String → String) (A : App α) :
    List Iter → Game α → Option (Outcome α)
  | [], g => some (Outcome.running g)
  | it :: rest, g =>
    match Game.step sprintf A g it with
    | none => none
    | some (Outcome.stopped g2) => some (Outcome.stopped g2)
    | some (Outcome.running g2) => Game.loop sprintf A rest g2

/-- Source `(g *Game) Start()` up to the end of the loop: `Init` (a panic on
an error), `resize` to the size the driver reports, then the loop. -/
def Game.Start {α : Type} (sprintf : String → String) (A : App α) (g : Game α)
    (initErr : Bool) (size : Int × Int) (its : List Iter) : Option (Outcome α) :=
  if initErr then none
  else
    match g.screen.screen.resize size.1 size.2 with
    | none => none
    | some s => Game.loop sprintf A its { g with screen := { g.screen with screen := s } }

/-- A key event as the loop receives it. -/
def keyEvent (k : Key) : Iter :=
  { polled := Polled.received (some (TcellEvent.key k)), stamp := "" }

/-! ## A screen in use

The methods of a screen called one after another.  `Draw` ends with
`s.oldCanvas = s.canvas`, which makes the two fields the same slice: from
then until `canvas` is assigned again (by `resize` or the next `Draw`) a
`RenderCell` into `canvas` is seen through `oldCanvas` too. -/

/-- A method of the screen, with its arguments. -/
inductive Method where
  | resize (w h : Int)
  | Draw
  | RenderCell (x y : Int) (c : Cell)
  | Tick (ev : Event)
  | AddEntity (d : Drawable)
  | RemoveEntity (d : Drawable)
  | setOffset (x y : Int)
deriving DecidableEq, Repr

/-- The screen with its collaborators, and whether `oldCanvas` and `canvas`
are the same slice. -/
structure Session (α : Type) where
  world : World α
  shared : Bool

/-- One method call on the screen. -/
def Method.apply {α : Type} (A : App α) (m : Method) (ss : Session α) :
    Option (Session α) :=
  match m with
  | Method.resize w h =>
    match ss.world.screen.resize w h with
    | none => none
    | some s => some { world := { ss.world with screen := s }, shared := false }
  | Method.Draw =>
    match Screen.Draw A ss.world with
    | none => none
    | some w => some { world := w, shared := true }
  | Method.RenderCell x y c =>
    match ss.world.screen.RenderCell x y c with
    | none => none
    | some s =>
      some { ss with world := { ss.world with
               screen := if ss.shared then { s with oldCanvas := some s.canvas } else s } }
  | Method.Tick ev =>
    match Screen.Tick A ss.world ev with
    | none => none
    | some w => some { ss with world := w }
  | Method.AddEntity d =>
    some { ss with world := ss.world.sceneOp A (SceneOp.AddEntity d) }
  | Method.RemoveEntity d =>
    some { ss with world := ss.world.sceneOp A (SceneOp.RemoveEntity d) }
  | Method.setOffset x y =>
    some { ss with world := { ss.world with screen := ss.world.screen.setOffset x y } }

/-- The method calls of a list, in order. -/
def runMethods {α : Type} (A : App α) : List Method → Session α → Option (Session α)
  | [], ss => some ss
  | m :: rest, ss =>
    match m.apply A ss with
    | none => none
    | some ss2 => runMethods A rest ss2

/-- The canvas of the screen has `width` columns of `height` cells each. -/
def Screen.shapeOk (s : Screen) : Prop :=
  s.canvas.isRect s.width.toNat s.height.toNat

/-! ## Canvas equality -/

theorem Cell.equals_eq_decide (a b : Cell) : a.equals b = decide (a = b) := by
  cases a; cases b
  simp only [Cell.equals, Cell.mk.injEq]
  rw [Bool.eq_iff_iff]
  simp [Bool.and_assoc]

theorem equalsCol_eq (col2 : List Cell) :
    ∀ (col : List Cell) (j : Nat), j + col.length = col2.length →
      equalsCol col2 j col = some (decide (col = col2.drop j)) := by
  intro col
  induction col with
  | nil =>
    intro j hj
    have h : col2.drop j = [] := List.drop_eq_nil_of_le (by simp at hj; omega)
    simp [equalsCol, h]
  | cons a rest ih =>
    intro j hj
    have hlt : j < col2.length := by simp at hj; omega
    have hd : col2.drop j = col2[j] :: col2.drop (j + 1) := List.drop_eq_getElem_cons hlt
    have hr := ih (j + 1) (by simp at hj; omega)
    simp only [equalsCol, List.getElem?_eq_getElem hlt, hd, Cell.equals_eq_decide]
    by_cases hab : a = col2[j]
    · simp only [hab, hr, decide_True, if_true, List.cons.injEq, true_and]
    · simp [hab]
      rw [hd]
      intro h
      exact hab (List.cons_eq_cons.mp h).1

theorem equalsCols_eq (c2 : Canvas) (H : Nat) (h2 : ∀ col ∈ c2, col.length = H) :
    ∀ (cs : List (List Cell)) (i : Nat), i + cs.length = c2.length →
      (∀ col ∈ cs, col.length = H) →
      equalsCols c2 i cs = some (decide (cs = c2.drop i)) := by
  intro cs
  induction cs with
  | nil =>
    intro i hi _
    have h : c2.drop i = [] := List.drop_eq_nil_of_le (by simp at hi; omega)
    simp [equalsCols, h]
  | cons col rest ih =>
    intro i hi hH
    have hlt : i < c2.length := by simp at hi; omega
    have hd : c2.drop i = c2[i] :: c2.drop (i + 1) := List.drop_eq_getElem_cons hlt
    have hr := ih (i + 1) (by simp at hi; omega)
      (fun x hx => hH x (List.mem_cons_of_mem _ hx))
    have hlen : 0 + col.length = (c2[i]).length := by
      rw [hH col (List.mem_cons_self _ _), h2 _ (List.getElem_mem hlt)]; simp
    have hc := equalsCol_eq (c2[i]) col 0 hlen
    simp only [List.drop_zero] at hc
    simp only [equalsCols, List.getElem?_eq_getElem hlt, hd, hc]
    by_cases hab : col = c2[i]
    · simp only [hab, hr, decide_True, List.cons.injEq, true_and]
    · simp [hab]
      rw [hd]
      intro h
      exact hab (List.cons_eq_cons.mp h).1

/-- On two rectangular canvases, the first with at least one column, `equals`
returns, and returns whether the two canvases are the same grid of cells. -/
theorem Canvas.equals_of_isRect (cv d : Canvas) (W H W2 H2 : Nat)
    (hc : cv.isRect W H) (hd : d.isRect W2 H2) (hW : 0 < W) :
    cv.equals (some d) = some (decide (cv = d)) := by
  obtain ⟨hcl, hcH⟩ := hc
  obtain ⟨hdl, hdH⟩ := hd
  unfold Canvas.equals
  by_cases hlen : cv.length = d.length
  · have h0 : 0 < cv.length := by omega
    have h0d : 0 < d.length := by omega
    simp only [hlen, ne_eq, not_true_eq_false, if_false,
      List.getElem?_eq_getElem h0, List.getElem?_eq_getElem h0d]
    have e1 : (cv[0]).length = H := hcH _ (List.getElem_mem h0)
    have e2 : (d[0]).length = H2 := hdH _ (List.getElem_mem h0d)
    by_cases hH : H = H2
    · subst hH
      have := equalsCols_eq d H hdH cv 0 (by omega) hcH
      simp [e1, e2, this]
    · have hne : cv ≠ d := by
        intro h; subst h; exact hH (e1.symm.trans e2)
      simp [e1, e2, hH, hne]
  · have hne : cv ≠ d := by
      intro h; subst h; exact hlen rfl
    simp [hlen, hne]

/-- Two rectangular canvases are the same list of columns exactly when they
have the same width, the same height and the same cell at every position. -/
theorem Canvas.eq_iff_cells (cv d : Canvas) (W H W2 H2 : Nat)
    (hc : cv.isRect W H) (hd : d.isRect W2 H2) (hW : 0 < W) :
    cv = d ↔ W = W2 ∧ H = H2 ∧
      ∀ x y, x < W → y < H → cv.cellAt x y = d.cellAt x y := by
  obtain ⟨hcl, hcH⟩ := hc
  obtain ⟨hdl, hdH⟩ := hd
  constructor
  · intro h
    subst h
    have h0 : 0 < cv.length := by omega
    refine ⟨by omega, ?_, fun _ _ _ _ => rfl⟩
    exact (hcH _ (List.getElem_mem h0)).symm.trans (hdH _ (List.getElem_mem h0))
  · rintro ⟨hW2, hH2, hcell⟩
    subst hW2; subst hH2
    apply List.ext_getElem (by omega)
    intro x hx hx2
    apply List.ext_getElem
    · rw [hcH _ (List.getElem_mem hx), hdH _ (List.getElem_mem hx2)]
    · intro y hy hy2
      have hyH : y < H := by rw [← hcH _ (List.getElem_mem hx)]; exact hy
      have := hcell x y (by omega) hyH
      simp only [Canvas.cellAt, List.getElem?_eq_getElem hx, List.getElem?_eq_getElem hx2,
        List.getElem?_eq_getElem hy, List.getElem?_eq_getElem hy2] at this
      exact Option.some.inj this

/-- Against an absent canvas `equals` returns false, whatever the receiver. -/
theorem Canvas.equals_absent (cv : Canvas) : cv.equals none = some false := rfl

/-- On rectangular canvases with at least one column `equals` is reflexive. -/
theorem Canvas.equals_self_of_isRect (cv : Canvas) (W H : Nat)
    (hc : cv.isRect W H) (hW : 0 < W) : cv.equals (some cv) = some true := by
  rw [Canvas.equals_of_isRect cv cv W H W H hc hc hW]; simp

/-- On rectangular canvases with at least one column each `equals` is
symmetric. -/
theorem Canvas.equals_comm_of_isRect (cv d : Canvas) (W H W2 H2 : Nat)
    (hc : cv.isRect W H) (hd : d.isRect W2 H2) (hW : 0 < W) (hW2 : 0 < W2) :
    cv.equals (some d) = d.equals (some cv) := by
  rw [Canvas.equals_of_isRect cv d W H W2 H2 hc hd hW,
    Canvas.equals_of_isRect d cv W2 H2 W H hd hc hW2]
  simp [eq_comm]

/-! ## Cells of rectangular canvases -/

theorem Canvas.cellAt_of_isRect (cv : Canvas) (W H x y : Nat) (hc : cv.isRect W H)
    (hx : x < W) (hy : y < H) : ∃ v, cv.cellAt x y = some v := by
  obtain ⟨hl, hH⟩ := hc
  have hx2 : x < cv.length := by omega
  have hy2 : y < (cv[x]).length := by rw [hH _ (List.getElem_mem hx2)]; exact hy
  exact ⟨(cv[x])[y], by
    simp [Canvas.cellAt, List.getElem?_eq_getElem hx2, List.getElem?_eq_getElem hy2]⟩

theorem Canvas.setCell_of_isRect (cv : Canvas) (W H x y : Nat) (v : Cell)
    (hc : cv.isRect W H) (hx : x < W) (hy : y < H) :
    ∃ cv2, cv.setCell x y v = some cv2 ∧ cv2.isRect W H ∧
      ∀ x2 y2, cv2.cellAt x2 y2
        = if x2 = x ∧ y2 = y then some v else cv.cellAt x2 y2 := by
  obtain ⟨hl, hH⟩ := hc
  have hx2 : x < cv.length := by omega
  have hcol : (cv[x]).length = H := hH _ (List.getElem_mem hx2)
  have hy2 : y < (cv[x]).length := by omega
  refine ⟨cv.set x ((cv[x]).set y v), ?_, ⟨?_, ?_⟩, ?_⟩
  · simp [Canvas.setCell, List.getElem?_eq_getElem hx2, hy2]
  · simp [hl]
  · intro col hmem
    rcases List.mem_or_eq_of_mem_set hmem with h | h
    · exact hH _ h
    · rw [h]; simp [hcol]
  · intro x2 y2
    unfold Canvas.cellAt
    rw [List.getElem?_set]
    by_cases hxx : x = x2
    · subst hxx
      simp only [if_true, hx2, List.getElem?_eq_getElem hx2, true_and]
      rw [List.getElem?_set]
      by_cases hyy : y = y2
      · subst hyy; simp [hy2]
      · simp [hyy, Ne.symm hyy]
    · simp [hxx, Ne.symm hxx]

theorem NewCanvas_of_nonneg (w h : Int) (hw : 0 ≤ w) (hh : 0 ≤ h) :
    NewCanvas w h = some (List.replicate w.toNat (List.replicate h.toNat Cell.zero)) := by
  unfold NewCanvas
  by_cases h0 : w = 0
  · subst h0; simp
  · have h1 : ¬ w < 0 := by omega
    have h2 : ¬ h < 0 := by omega
    simp [h0, h1, h2]

theorem isRect_replicate (W H : Nat) :
    Canvas.isRect (List.replicate W (List.replicate H Cell.zero)) W H := by
  refine ⟨by simp, ?_⟩
  intro col hmem
  rw [List.eq_of_mem_replicate hmem]; simp

theorem cellAt_replicate (W H x y : Nat) (hx : x < W) (hy : y < H) :
    Canvas.cellAt (List.replicate W (List.replicate H Cell.zero)) x y = some Cell.zero := by
  simp [Canvas.cellAt, List.getElem?_replicate, hx, hy]

/-! ## `resize` -/

theorem resizeCol_spec (old : Canvas) (oldW oldH W H i : Nat)
    (hold : old.isRect oldW oldH) (hi : i < W) (hio : i < oldW) :
    ∀ (n : Nat) (cv : Canvas), n ≤ H → n ≤ oldH → cv.isRect W H →
      ∃ cv2, resizeCol old i n cv = some cv2 ∧ cv2.isRect W H ∧
        ∀ x y, cv2.cellAt x y
          = if x = i ∧ y < n then old.cellAt x y else cv.cellAt x y := by
  intro n
  induction n with
  | zero =>
    intro cv _ _ hcv
    exact ⟨cv, by simp [resizeCol], hcv, by simp⟩
  | succ n ih =>
    intro cv hn hno hcv
    obtain ⟨cv1, h1, hr1, hc1⟩ := ih cv (by omega) (by omega) hcv
    obtain ⟨v, hv⟩ := Canvas.cellAt_of_isRect old oldW oldH i n hold hio (by omega)
    obtain ⟨cv2, h2, hr2, hc2⟩ := Canvas.setCell_of_isRect cv1 W H i n v hr1 hi (by omega)
    refine ⟨cv2, ?_, hr2, ?_⟩
    · unfold resizeCol at h1 ⊢
      rw [List.range_succ, List.foldlM_append, h1]
      simp [hv, h2]
    · intro x y
      rw [hc2 x y, hc1 x y]
      by_cases hx : x = i
      · subst hx
        by_cases hy : y = n
        · subst hy; simp [hv]
        · by_cases hy2 : y < n
          · have : y < n + 1 := by omega
            simp [hy, hy2, this]
          · have : ¬ y < n + 1 := by omega
            simp [hy, hy2, this]
      · simp [hx]

theorem minInt_toNat_le (h : Int) (n : Nat) : (minInt h n).toNat ≤ n := by
  unfold minInt
  split_ifs <;> omega

theorem resizeCols_spec (old : Canvas) (oldW oldH W H : Nat) (h : Int)
    (hold : old.isRect oldW oldH) (hn : (minInt h oldH).toNat ≤ H) :
    ∀ (m : Nat) (cv : Canvas), m ≤ W → m ≤ oldW → cv.isRect W H →
      ∃ cv2,
        (List.range m).foldlM
          (fun acc i =>
            match old[0]? with
            | none => none
            | some c0 => resizeCol old i (minInt h c0.length).toNat acc) cv = some cv2 ∧
        cv2.isRect W H ∧
        ∀ x y, cv2.cellAt x y
          = if x < m ∧ y < (minInt h oldH).toNat then old.cellAt x y
            else cv.cellAt x y := by
  intro m
  induction m with
  | zero =>
    intro cv _ _ hcv
    exact ⟨cv, by simp, hcv, by simp⟩
  | succ m ih =>
    intro cv hm hmo hcv
    obtain ⟨cv1, h1, hr1, hc1⟩ := ih cv (by omega) (by omega) hcv
    have hlen : 0 < old.length := by rw [hold.1]; omega
    have hcol : (old[0]).length = oldH := hold.2 _ (List.getElem_mem hlen)
    obtain ⟨cv2, h2, hr2, hc2⟩ :=
      resizeCol_spec old oldW oldH W H m hold (by omega) (by omega)
        (minInt h oldH).toNat cv1 hn (minInt_toNat_le h oldH) hr1
    refine ⟨cv2, ?_, hr2, ?_⟩
    · rw [List.range_succ, List.foldlM_append, h1]
      simp [List.getElem?_eq_getElem hlen, hcol, h2]
    · intro x y
      rw [hc2 x y, hc1 x y]
      by_cases hx : x = m
      · subst hx
        by_cases hy : y < (minInt h oldH).toNat <;> simp [hy]
      · by_cases hx2 : x < m
        · have : x < m + 1 := by omega
          simp [hx, hx2, this]
        · have : ¬ x < m + 1 := by omega
          simp [hx, hx2, this]

theorem minInt_toNat (a b : Int) (ha : 0 ≤ a) (hb : 0 ≤ b) :
    (minInt a b).toNat = min a.toNat b.toNat := by
  unfold minInt
  split_ifs <;> omega

/-! ## `CanvasFromString` -/

theorem splitLines_ne_nil : ∀ l : List Char, splitLines l ≠ [] := by
  intro l
  induction l with
  | nil => simp [splitLines]
  | cons ch rest ih =>
    unfold splitLines
    by_cases h : ch = '\n'
    · simp [h]
    · cases hs : splitLines rest with
      | nil => simp [h]
      | cons row rows => simp [h]

theorem joinLines_splitLines : ∀ l : List Char, joinLines (splitLines l) = l := by
  intro l
  induction l with
  | nil => simp [splitLines, joinLines]
  | cons ch rest ih =>
    unfold splitLines
    by_cases h : ch = '\n'
    · cases hs : splitLines rest with
      | nil => exact absurd hs (splitLines_ne_nil rest)
      | cons row rows =>
        rw [hs] at ih
        simp [h, joinLines, ih]
    · cases hs : splitLines rest with
      | nil => exact absurd hs (splitLines_ne_nil rest)
      | cons row rows =>
        rw [hs] at ih
        cases rows with
        | nil =>
          simp only [joinLines] at ih
          simp [h, joinLines, ih]
        | cons next rows2 =>
          simp only [joinLines] at ih
          simp [h, joinLines, ih]

theorem splitLines_no_newline : ∀ l : List Char, ∀ row ∈ splitLines l, '\n' ∉ row := by
  intro l
  induction l with
  | nil => simp [splitLines]
  | cons ch rest ih =>
    unfold splitLines
    by_cases h : ch = '\n'
    · intro row hrow
      simp only [h, if_true, List.mem_cons] at hrow
      rcases hrow with hr | hr
      · rw [hr]; simp
      · exact ih row hr
    · cases hs : splitLines rest with
      | nil => exact absurd hs (splitLines_ne_nil rest)
      | cons r rows =>
        rw [hs] at ih
        intro row hrow
        simp only [h, if_false, List.mem_cons] at hrow
        rcases hrow with hr | hr
        · rw [hr]
          have := ih r (List.mem_cons_self _ _)
          simp [this, Ne.symm h]
        · exact ih row (List.mem_cons_of_mem _ hr)

theorem foldl_maxInt (rows : List (List Rune)) :
    ∀ w0 : Int, 0 ≤ w0 →
      w0 ≤ rows.foldl (fun w r => maxInt w r.length) w0 ∧
      (∀ r ∈ rows, (r.length : Int) ≤ rows.foldl (fun w r => maxInt w r.length) w0) ∧
      (rows.foldl (fun w r => maxInt w r.length) w0 = w0 ∨
        ∃ r ∈ rows, rows.foldl (fun w r => maxInt w r.length) w0 = r.length) := by
  induction rows with
  | nil => intro w0 _; simp
  | cons r rest ih =>
    intro w0 h0
    have hm : w0 ≤ maxInt w0 r.length ∧ (r.length : Int) ≤ maxInt w0 r.length ∧
        (maxInt w0 r.length = w0 ∨ maxInt w0 r.length = r.length) := by
      unfold maxInt; split_ifs <;> omega
    obtain ⟨h1, h2, h3⟩ := ih (maxInt w0 r.length) (by omega)
    simp only [List.foldl_cons]
    refine ⟨by omega, ?_, ?_⟩
    · intro x hx
      rcases List.mem_cons.mp hx with hx | hx
      · rw [hx]; omega
      · exact h2 x hx
    · rcases h3 with h3 | ⟨x, hx, h3⟩
      · rcases hm.2.2 with hm | hm
        · left; rw [h3, hm]
        · right; exact ⟨r, List.mem_cons_self _ _, by rw [h3, hm]⟩
      · right; exact ⟨x, List.mem_cons_of_mem _ hx, h3⟩

/-! ## `RenderCell` -/

/-- `RenderCell` on a rectangular canvas: inside the canvas the one cell is
merged, outside nothing changes; it never panics. -/
theorem Screen.RenderCell_of_isRect (s : Screen) (W H : Nat) (x y : Int) (c : Cell)
    (hrect : s.canvas.isRect W H) :
    ((0 ≤ wrapInt (x + s.offsetx) ∧ wrapInt (x + s.offsetx) < W ∧
        0 ≤ wrapInt (y + s.offsety) ∧ wrapInt (y + s.offsety) < H) →
      ∃ old cv2,
        s.canvas.cellAt (wrapInt (x + s.offsetx)).toNat (wrapInt (y + s.offsety)).toNat
          = some old ∧
        s.RenderCell x y c = some { s with canvas := cv2 } ∧
        cv2.isRect W H ∧
        ∀ x2 y2, cv2.cellAt x2 y2
          = if x2 = (wrapInt (x + s.offsetx)).toNat ∧ y2 = (wrapInt (y + s.offsety)).toNat
            then some (renderCell old c) else s.canvas.cellAt x2 y2) ∧
    (¬ (0 ≤ wrapInt (x + s.offsetx) ∧ wrapInt (x + s.offsetx) < W ∧
        0 ≤ wrapInt (y + s.offsety) ∧ wrapInt (y + s.offsety) < H) →
      s.RenderCell x y c = some s) := by
  obtain ⟨hl, hH⟩ := hrect
  refine ⟨?_, ?_⟩
  · rintro ⟨h1, h2, h3, h4⟩
    have hx : (wrapInt (x + s.offsetx)).toNat < W := by omega
    have hy : (wrapInt (y + s.offsety)).toNat < H := by omega
    have h0 : 0 < s.canvas.length := by omega
    have hcol : (s.canvas[0]).length = H := hH _ (List.getElem_mem h0)
    obtain ⟨old, hold⟩ := Canvas.cellAt_of_isRect s.canvas W H _ _ ⟨hl, hH⟩ hx hy
    obtain ⟨cv2, hs, hr, hc⟩ :=
      Canvas.setCell_of_isRect s.canvas W H _ _ (renderCell old c) ⟨hl, hH⟩ hx hy
    refine ⟨old, cv2, hold, ?_, hr, hc⟩
    unfold Screen.RenderCell
    have hc1 : 0 ≤ wrapInt (x + s.offsetx) ∧
        wrapInt (x + s.offsetx) < (s.canvas.length : Int) ∧ 0 ≤ wrapInt (y + s.offsety) :=
      ⟨h1, by omega, h3⟩
    have hc2 : wrapInt (y + s.offsety) < ((s.canvas[0]).length : Int) := by omega
    simp only [hc1, and_self, if_true, List.getElem?_eq_getElem h0, hc2, hold, hs]
  · intro hnot
    unfold Screen.RenderCell
    by_cases hc1 : 0 ≤ wrapInt (x + s.offsetx) ∧
        wrapInt (x + s.offsetx) < (s.canvas.length : Int) ∧ 0 ≤ wrapInt (y + s.offsety)
    · have h0 : 0 < s.canvas.length := by omega
      have hcol : (s.canvas[0]).length = H := hH _ (List.getElem_mem h0)
      have hc2 : ¬ wrapInt (y + s.offsety) < ((s.canvas[0]).length : Int) := by
        intro h
        apply hnot
        exact ⟨hc1.1, by omega, hc1.2.2, by omega⟩
      simp only [hc1, and_self, if_true, List.getElem?_eq_getElem h0, hc2, if_false]
    · simp only [hc1, if_false]

/-- A sum that fits in an `int` is what the program computes. -/
theorem wrapInt_of_fits (n : Int) (h1 : -(2 : Int) ^ 63 ≤ n) (h2 : n < 2 ^ 63) :
    wrapInt n = n := by
  unfold wrapInt intBits
  omega

/-! ## Entities -/

theorem findIdx_entity (d : Drawable) :
    ∀ l : List Drawable,
      (d ∉ l ∧ l.findIdx? (fun elem => elem == d) = none) ∨
      (∃ pre post, l = pre ++ d :: post ∧ d ∉ pre ∧
        l.findIdx? (fun elem => elem == d) = some pre.length) := by
  intro l
  induction l with
  | nil => left; simp
  | cons x xs ih =>
    by_cases hx : x = d
    · right
      refine ⟨[], xs, by simp [hx], by simp, ?_⟩
      simp [List.findIdx?_cons, hx]
    · rcases ih with ⟨hn, hf⟩ | ⟨pre, post, hl, hpre, hf⟩
      · left
        refine ⟨by simp [hn, Ne.symm hx], ?_⟩
        simp [List.findIdx?_cons, hx, List.findIdx?_succ, hf]
      · right
        refine ⟨x :: pre, post, by simp [hl], by simp [hpre, Ne.symm hx], ?_⟩
        simp [List.findIdx?_cons, hx, List.findIdx?_succ, hf]

theorem findIdx_append_self (d : Drawable) :
    ∀ l : List Drawable, d ∉ l →
      (l ++ [d]).findIdx? (fun elem => elem == d) = some l.length := by
  intro l
  induction l with
  | nil => intro _; simp [List.findIdx?_cons]
  | cons x xs ih =>
    intro h
    have hx : x ≠ d := fun e => h (by rw [e]; exact List.mem_cons_self _ _)
    have hxs : d ∉ xs := fun e => h (List.mem_cons_of_mem _ e)
    simp [List.findIdx?_cons, hx, List.findIdx?_succ, ih hxs]

/-- `RemoveEntity(d)` makes the list one shorter when `d` is in it. -/
theorem Screen.RemoveEntity_length (s : Screen) (d : Drawable) :
    (s.RemoveEntity d).Entities.length + (if d ∈ s.Entities then 1 else 0)
      = s.Entities.length := by
  rcases findIdx_entity d s.Entities with ⟨hn, hf⟩ | ⟨pre, post, hl, _, hf⟩
  · simp [Screen.RemoveEntity, hf, hn]
  · have hm : d ∈ s.Entities := by rw [hl]; simp
    have hlen : s.Entities.length = pre.length + (post.length + 1) := by rw [hl]; simp
    unfold Screen.RemoveEntity
    rw [hf]
    simp only [hm, if_true, List.length_append, List.length_take, List.length_drop]
    omega

/-! ## Callbacks that change what is attached to the screen -/

theorem Screen.sameCanvas_refl (s : Screen) : s.sameCanvas s := ⟨rfl, rfl, rfl, rfl, rfl, rfl⟩

theorem Screen.sameCanvas_trans (s s2 s3 : Screen) (h1 : s.sameCanvas s2)
    (h2 : s2.sameCanvas s3) : s.sameCanvas s3 := by
  obtain ⟨a1, a2, a3, a4, a5, a6⟩ := h1
  obtain ⟨b1, b2, b3, b4, b5, b6⟩ := h2
  exact ⟨b1.trans a1, b2.trans a2, b3.trans a3, b4.trans a4, b5.trans a5, b6.trans a6⟩

theorem SceneOp.apply_sameCanvas (op : SceneOp) (s : Screen) : s.sameCanvas (op.apply s) := by
  cases op with
  | AddEntity d => exact ⟨rfl, rfl, rfl, rfl, rfl, rfl⟩
  | SetLevel l => exact ⟨rfl, rfl, rfl, rfl, rfl, rfl⟩
  | RemoveEntity d =>
    simp only [SceneOp.apply, Screen.RemoveEntity]
    cases s.Entities.findIdx? (fun elem => elem == d) <;> exact ⟨rfl, rfl, rfl, rfl, rfl, rfl⟩

theorem World.sceneOp_fields {α : Type} (A : App α) (op : SceneOp) (w : World α) :
    (w.sceneOp A op).screen = op.apply w.screen ∧ (w.sceneOp A op).app = w.app ∧
    (w.sceneOp A op).trace = w.trace := by
  cases op <;> exact ⟨rfl, rfl, rfl⟩

/-- A call made during a loop never shortens the array the loop reads. -/
theorem World.sceneStep_view {α : Type} (A : App α) (st : LoopState α) (op : SceneOp) :
    st.view.length ≤ (World.sceneStep A st op).view.length := by
  obtain ⟨f, w⟩ := st
  cases f with
  | some arr => exact le_refl _
  | none =>
    cases op with
    | SetLevel l => exact le_refl _
    | AddEntity d =>
      by_cases h : (SceneOp.AddEntity d).reallocates w = true
      · simp only [World.sceneStep, LoopState.view, h, if_true]
        exact le_refl _
      · have h2 : (SceneOp.AddEntity d).reallocates w = false := by simpa using h
        simp only [World.sceneStep, LoopState.view, h2, Bool.false_eq_true, if_false]
        simp only [World.array, World.sceneOp, Screen.AddEntity, List.length_append,
          List.length_tail, List.length_cons, List.length_nil]
        omega
    | RemoveEntity d =>
      have hlen := Screen.RemoveEntity_length w.screen d
      simp only [World.sceneStep, LoopState.view, SceneOp.reallocates, Bool.false_eq_true,
        if_false]
      simp only [World.array, World.sceneOp, List.length_append]
      by_cases hm : d ∈ w.screen.Entities
      · simp only [hm, if_true] at hlen ⊢
        have hne : w.screen.Entities ≠ [] := by
          intro e; rw [e] at hm; exact List.not_mem_nil _ hm
        obtain ⟨x, hx⟩ : ∃ x, w.screen.Entities.getLast? = some x := by
          rw [List.getLast?_eq_getLast _ hne]; exact ⟨_, rfl⟩
        rw [hx]
        simp only [Option.toList, List.length_cons, List.length_nil]
        omega
      · simp only [hm, if_false] at hlen ⊢
        simp only [List.length_nil]
        omega

theorem runScene_spec {α : Type} (A : App α) :
    ∀ (ops : List SceneOp) (st : LoopState α),
      st.view.length ≤ (runScene A ops st).view.length ∧
      st.2.screen.sameCanvas (runScene A ops st).2.screen ∧
      (runScene A ops st).2.trace = st.2.trace ∧
      (runScene A ops st).2.app = st.2.app := by
  intro ops
  induction ops with
  | nil => intro st; exact ⟨le_refl _, st.2.screen.sameCanvas_refl, rfl, rfl⟩
  | cons op rest ih =>
    intro st
    obtain ⟨h1, h2, h3, h4⟩ := ih (World.sceneStep A st op)
    obtain ⟨f1, f2, f3⟩ := World.sceneOp_fields A op st.2
    have e : runScene A (op :: rest) st = runScene A rest (World.sceneStep A st op) := rfl
    rw [e]
    refine ⟨le_trans (World.sceneStep_view A st op) h1, ?_, ?_, ?_⟩
    · refine Screen.sameCanvas_trans _ _ _ ?_ h2
      show st.2.screen.sameCanvas (st.2.sceneOp A op).screen
      rw [f1]
      exact SceneOp.apply_sameCanvas op st.2.screen
    · rw [h3]; exact f3
    · rw [h4]; exact f2

theorem tickCall_spec {α : Type} (A : App α) (p : α → Screen → List SceneOp × α)
    (call : Call) (st : LoopState α) :
    st.view.length ≤ (tickCall A p call st).view.length ∧
    st.2.screen.sameCanvas (tickCall A p call st).2.screen ∧
    (tickCall A p call st).2.trace = st.2.trace ++ [call] := by
  obtain ⟨h1, h2, h3, _⟩ := runScene_spec A (p st.2.app st.2.screen).1
    (st.1, { st.2 with app := (p st.2.app st.2.screen).2, trace := st.2.trace ++ [call] })
  exact ⟨h1, h2, h3⟩

/-- A loop over `s.Entities` returns when its body does: it never reads a
slot past the array it ranges over. -/
theorem rangeEntities_returns {α : Type}
    (body : Drawable → LoopState α → Option (LoopState α)) (P : LoopState α → Prop)
    (hbody : ∀ e st, P st →
      ∃ st2, body e st = some st2 ∧ P st2 ∧ st.view.length ≤ st2.view.length) :
    ∀ (k i : Nat) (st : LoopState α), P st → i + k ≤ st.view.length →
      ∃ st2, rangeEntities body k i st = some st2.2 ∧ P st2 := by
  intro k
  induction k with
  | zero => intro i st hP _; exact ⟨st, rfl, hP⟩
  | succ k ih =>
    intro i st hP hlen
    have hi : i < st.view.length := by omega
    obtain ⟨st1, h1, hP1, hv1⟩ := hbody (st.view.get ⟨i, hi⟩) st hP
    obtain ⟨st2, h2, hP2⟩ := ih (i + 1) st1 hP1 (by omega)
    refine ⟨st2, ?_, hP2⟩
    have hg : st.view[i]? = some (st.view.get ⟨i, hi⟩) := by
      rw [List.getElem?_eq_getElem hi]; rfl
    simp only [rangeEntities, hg, h1, h2]

/-- `Tick` returns on every screen, whatever the callbacks add or remove, and
leaves the canvas, the previous canvas, the size and the offset alone. -/
theorem Screen.Tick_returns {α : Type} (A : App α) (w : World α) (ev : Event) :
    ∃ w2, Screen.Tick A w ev = some w2 ∧ w.screen.sameCanvas w2.screen := by
  have hlevel : w.screen.sameCanvas (Screen.tickLevel A w ev).screen := by
    unfold Screen.tickLevel
    cases w.screen.level with
    | none => exact w.screen.sameCanvas_refl
    | some l => exact (tickCall_spec A _ _ (none, w)).2.1
  unfold Screen.Tick
  by_cases hev : ev = none
  · exact ⟨_, by simp [hev], hlevel⟩
  · obtain ⟨st2, h2, hP2⟩ := rangeEntities_returns (tickEntity A ev)
      (fun st => w.screen.sameCanvas st.2.screen)
      (by
        intro e st hP
        obtain ⟨h1, h2, _⟩ := tickCall_spec A (A.entityTick e ev) (Call.entityTick e ev) st
        exact ⟨_, rfl, Screen.sameCanvas_trans _ _ _ hP h2, h1⟩)
      (Screen.tickLevel A w ev).screen.Entities.length 0 (none, Screen.tickLevel A w ev)
      hlevel (by simp [LoopState.view, World.array])
    exact ⟨st2.2, by simp [hev, h2], hP2⟩

/-- Calls of `SetLevel` leave the array of `s.Entities` and the list alone. -/
theorem runScene_setLevel {α : Type} (A : App α) :
    ∀ (ops : List SceneOp) (st : LoopState α), (∀ op ∈ ops, ∃ l, op = SceneOp.SetLevel l) →
      (runScene A ops st).1 = st.1 ∧ (runScene A ops st).2.array = st.2.array ∧
      (runScene A ops st).2.screen.Entities = st.2.screen.Entities := by
  intro ops
  induction ops with
  | nil => intro st _; exact ⟨rfl, rfl, rfl⟩
  | cons op rest ih =>
    intro st hops
    obtain ⟨l, hl⟩ := hops op (List.mem_cons_self _ _)
    obtain ⟨h1, h2, h3⟩ :=
      ih (World.sceneStep A st op) (fun o ho => hops o (List.mem_cons_of_mem _ ho))
    have e : runScene A (op :: rest) st = runScene A rest (World.sceneStep A st op) := rfl
    rw [e, h1, h2, h3, hl]
    obtain ⟨f, w⟩ := st
    cases f <;> exact ⟨rfl, rfl, rfl⟩

theorem tickCall_keeps {α : Type} (A : App α) (p : α → Screen → List SceneOp × α)
    (call : Call) (st : LoopState α)
    (hp : ∀ op ∈ (p st.2.app st.2.screen).1, ∃ l, op = SceneOp.SetLevel l) :
    (tickCall A p call st).1 = st.1 ∧ (tickCall A p call st).2.array = st.2.array ∧
    (tickCall A p call st).2.screen.Entities = st.2.screen.Entities ∧
    (tickCall A p call st).2.trace = st.2.trace ++ [call] := by
  obtain ⟨h1, h2, h3⟩ := runScene_setLevel A (p st.2.app st.2.screen).1
    (st.1, { st.2 with app := (p st.2.app st.2.screen).2, trace := st.2.trace ++ [call] }) hp
  exact ⟨h1, h2, h3, (tickCall_spec A p call st).2.2⟩

/-- A loop whose body leaves the array as it is makes one call per slot, in
order. -/
theorem rangeEntities_fixed {α : Type}
    (body : Drawable → LoopState α → Option (LoopState α)) (call : Drawable → Call)
    (arr : List Drawable)
    (hbody : ∀ e st, st.1 = none → st.2.array = arr →
      ∃ st2, body e st = some st2 ∧ st2.1 = none ∧ st2.2.array = arr ∧
        st2.2.trace = st.2.trace ++ [call e] ∧
        st2.2.screen.Entities = st.2.screen.Entities) :
    ∀ (k i : Nat) (st : LoopState α), st.1 = none → st.2.array = arr →
      i + k ≤ arr.length →
      ∃ w2, rangeEntities body k i st = some w2 ∧
        w2.trace = st.2.trace ++ ((arr.drop i).take k).map call ∧
        w2.screen.Entities = st.2.screen.Entities := by
  intro k
  induction k with
  | zero => intro i st _ _ _; exact ⟨st.2, rfl, by simp, rfl⟩
  | succ k ih =>
    intro i st hf ha hlen
    have hi : i < arr.length := by omega
    obtain ⟨st1, h1, hf1, ha1, ht1, hE1⟩ := hbody (arr.get ⟨i, hi⟩) st hf ha
    obtain ⟨w2, h2, ht2, hE2⟩ := ih (i + 1) st1 hf1 ha1 (by omega)
    have hview : st.view = arr := by
      unfold LoopState.view
      rw [hf]
      exact ha
    have hg : st.view[i]? = some (arr.get ⟨i, hi⟩) := by
      rw [hview, List.getElem?_eq_getElem hi]; rfl
    have hd : arr.drop i = arr.get ⟨i, hi⟩ :: arr.drop (i + 1) := by
      rw [List.drop_eq_getElem_cons hi]; rfl
    refine ⟨w2, ?_, ?_, hE2.trans hE1⟩
    · simp only [rangeEntities, hg, h1, h2]
    · rw [ht2, ht1, hd, List.take_succ_cons, List.map_cons, List.append_assoc]
      rfl

/-! ## Painting -/

theorem Screen.sameFrame_refl (s : Screen) : s.sameFrame s := ⟨rfl, rfl, rfl, rfl, rfl⟩

theorem Screen.sameFrame_trans (s s2 s3 : Screen) (h1 : s.sameFrame s2)
    (h2 : s2.sameFrame s3) : s.sameFrame s3 := by
  obtain ⟨a1, a2, a3, a4, a5⟩ := h1
  obtain ⟨b1, b2, b3, b4, b5⟩ := h2
  exact ⟨b1.trans a1, b2.trans a2, b3.trans a3, b4.trans a4, b5.trans a5⟩

theorem Screen.sameSize_refl (s : Screen) : s.sameSize s := ⟨rfl, rfl, rfl⟩

theorem Screen.sameSize_trans (s s2 s3 : Screen) (h1 : s.sameSize s2)
    (h2 : s2.sameSize s3) : s.sameSize s3 := by
  obtain ⟨a1, a2, a3⟩ := h1
  obtain ⟨b1, b2, b3⟩ := h2
  exact ⟨b1.trans a1, b2.trans a2, b3.trans a3⟩

theorem Screen.sameFrame_sameSize (s s2 : Screen) (h : s.sameFrame s2) : s.sameSize s2 :=
  ⟨h.1, h.2.2.2.1, h.2.2.2.2⟩

theorem Screen.sameCanvas_sameSize (s s2 : Screen) (h : s.sameCanvas s2) : s.sameSize s2 :=
  ⟨h.2.1, h.2.2.1, h.2.2.2.1⟩

theorem ScreenOp.apply_of_isRect (op : ScreenOp) (s : Screen) (W H : Nat)
    (hrect : s.canvas.isRect W H) (hop : op.renders = true) :
    ∃ s2, op.apply s = some s2 ∧ s2.canvas.isRect W H ∧ s.sameFrame s2 := by
  cases op with
  | scene sop => exact Bool.noConfusion hop
  | setOffset x y => exact ⟨s.setOffset x y, rfl, hrect, s.sameFrame_refl⟩
  | RenderCell x y c =>
    obtain ⟨hin, hout⟩ := Screen.RenderCell_of_isRect s W H x y c hrect
    by_cases h : 0 ≤ wrapInt (x + s.offsetx) ∧ wrapInt (x + s.offsetx) < W ∧
        0 ≤ wrapInt (y + s.offsety) ∧ wrapInt (y + s.offsety) < H
    · obtain ⟨old, cv2, _, hr, hrect2, _⟩ := hin h
      exact ⟨{ s with canvas := cv2 }, hr, hrect2, ⟨rfl, rfl, rfl, rfl, rfl⟩⟩
    · exact ⟨s, hout h, hrect, s.sameFrame_refl⟩

theorem runOps_of_isRect (W H : Nat) :
    ∀ (ops : List ScreenOp) (s : Screen), (∀ op ∈ ops, op.renders = true) →
      s.canvas.isRect W H →
      ∃ s2, runOps ops s = some s2 ∧ s2.canvas.isRect W H ∧ s.sameFrame s2 := by
  intro ops
  induction ops with
  | nil => intro s _ hrect; exact ⟨s, rfl, hrect, s.sameFrame_refl⟩
  | cons op rest ih =>
    intro s hops hrect
    obtain ⟨s1, h1, hr1, hf1⟩ :=
      ScreenOp.apply_of_isRect op s W H hrect (hops op (List.mem_cons_self _ _))
    obtain ⟨s2, h2, hr2, hf2⟩ := ih s1 (fun o ho => hops o (List.mem_cons_of_mem _ ho)) hr1
    refine ⟨s2, ?_, hr2, Screen.sameFrame_trans _ _ _ hf1 hf2⟩
    simp [runOps, h1, h2]

/-- The screen methods a painter calls all return on a rectangular canvas,
whatever they add or remove; the canvas keeps its shape, and the array a
running loop reads does not get shorter. -/
theorem runPaint_of_isRect {α : Type} (A : App α) (W H : Nat) :
    ∀ (ops : List ScreenOp) (st : LoopState α), st.2.screen.canvas.isRect W H →
      ∃ st2, runPaint A ops st = some st2 ∧ st2.2.screen.canvas.isRect W H ∧
        st.2.screen.sameSize st2.2.screen ∧ st.view.length ≤ st2.view.length ∧
        st2.2.trace = st.2.trace ∧ st2.2.app = st.2.app := by
  intro ops
  induction ops with
  | nil =>
    intro st hrect
    exact ⟨st, rfl, hrect, st.2.screen.sameSize_refl, le_refl _, rfl, rfl⟩
  | cons op rest ih =>
    intro st hrect
    cases hop : op.renders with
    | false =>
      cases op with
      | RenderCell x y c => exact Bool.noConfusion hop
      | setOffset x y => exact Bool.noConfusion hop
      | scene sop =>
        obtain ⟨f1, f2, f3⟩ := World.sceneOp_fields A sop st.2
        have hc := SceneOp.apply_sameCanvas sop st.2.screen
        have e1 : (World.sceneStep A st sop).2.screen = sop.apply st.2.screen := f1
        have hr1 : (World.sceneStep A st sop).2.screen.canvas.isRect W H := by
          rw [e1, hc.1]; exact hrect
        obtain ⟨st2, h2, hr2, hs2, hv2, ht2, ha2⟩ := ih (World.sceneStep A st sop) hr1
        refine ⟨st2, h2, hr2, ?_, le_trans (World.sceneStep_view A st sop) hv2, ?_, ?_⟩
        · refine Screen.sameSize_trans _ _ _ ?_ hs2
          rw [e1]
          exact Screen.sameCanvas_sameSize _ _ hc
        · rw [ht2]; exact f3
        · rw [ha2]; exact f2
    | true =>
      obtain ⟨s1, h1, hr1, hf1⟩ := ScreenOp.apply_of_isRect op st.2.screen W H hrect hop
      obtain ⟨st2, h2, hr2, hs2, hv2, ht2, ha2⟩ :=
        ih (st.1, { st.2 with screen := s1 }) hr1
      have e : runPaint A (op :: rest) st
          = runPaint A rest (st.1, { st.2 with screen := s1 }) := by
        cases op with
        | scene sop => exact Bool.noConfusion hop
        | RenderCell x y c => simp only [runPaint, h1]
        | setOffset x y => simp only [runPaint, h1]
      have hv1 : LoopState.view ((st.1, { st.2 with screen := s1 }) : LoopState α)
          = st.view := by
        obtain ⟨f, w⟩ := st
        cases f with
        | some arr => rfl
        | none =>
          show s1.Entities ++ w.spare = w.screen.Entities ++ w.spare
          rw [hf1.2.2.1]
      rw [hv1] at hv2
      exact ⟨st2, by rw [e]; exact h2, hr2,
        Screen.sameSize_trans _ _ _ (Screen.sameFrame_sameSize _ _ hf1) hs2, hv2, ht2, ha2⟩

/-- A painting call returns on a rectangular canvas, whatever the painter adds
or removes. -/
theorem paint_of_isRect {α : Type} (A : App α) (p : α → Screen → List ScreenOp × α)
    (call : Call) (st : LoopState α) (W H : Nat) (hrect : st.2.screen.canvas.isRect W H) :
    ∃ st2, paint A p call st = some st2 ∧ st2.2.screen.canvas.isRect W H ∧
      st.2.screen.sameSize st2.2.screen ∧ st.view.length ≤ st2.view.length ∧
      st2.2.trace = st.2.trace ++ [call] := by
  obtain ⟨st2, h2, hr2, hs2, hv2, ht2, _⟩ :=
    runPaint_of_isRect A W H (p st.2.app st.2.screen).1
      (st.1, { st.2 with app := (p st.2.app st.2.screen).2, trace := st.2.trace ++ [call] })
      hrect
  exact ⟨st2, h2, hr2, hs2, hv2, ht2⟩

/-- The loop of `Draw` over `s.Entities` returns on a rectangular canvas,
whatever the painters add or remove. -/
theorem drawLoop_of_isRect {α : Type} (A : App α) (w : World α) (W H : Nat)
    (hrect : w.screen.canvas.isRect W H) :
    ∃ w2, rangeEntities (drawEntity A) w.screen.Entities.length 0 (none, w) = some w2 ∧
      w2.screen.canvas.isRect W H ∧ w.screen.sameSize w2.screen := by
  obtain ⟨st2, h2, hP2⟩ := rangeEntities_returns (drawEntity A)
    (fun st => st.2.screen.canvas.isRect W H ∧ w.screen.sameSize st.2.screen)
    (by
      intro e st hP
      obtain ⟨st2, h2, hr2, hs2, hv2, _⟩ :=
        paint_of_isRect A (A.entityDraw e) (Call.entityDraw e) st W H hP.1
      exact ⟨st2, h2, ⟨hr2, Screen.sameSize_trans _ _ _ hP.2 hs2⟩, hv2⟩)
    w.screen.Entities.length 0 (none, w) ⟨hrect, w.screen.sameSize_refl⟩
    (by simp [LoopState.view, World.array])
  exact ⟨st2.2, h2, hP2.1, hP2.2⟩

theorem paintOnce_of_isRect {α : Type} (A : App α) (p : α → Screen → List ScreenOp × α)
    (call : Call) (w : World α) (W H : Nat) (hrect : w.screen.canvas.isRect W H) :
    ∃ w2, paintOnce A p call w = some w2 ∧ w2.screen.canvas.isRect W H ∧
      w.screen.sameSize w2.screen ∧ w2.trace = w.trace ++ [call] := by
  obtain ⟨st2, h2, hr2, hs2, _, ht2⟩ := paint_of_isRect A p call (none, w) W H hrect
  exact ⟨st2.2, by simp [paintOnce, h2], hr2, hs2, ht2⟩

/-- When the painting calls of `Draw` return, the canvas has kept its shape
and the screen its size and previous canvas, whatever the painters did. -/
theorem Screen.paintAll_keeps {α : Type} (A : App α) (w w2 : World α) (W H : Nat)
    (hrect : w.screen.canvas.isRect W H) (h : Screen.paintAll A w = some w2) :
    w2.screen.canvas.isRect W H ∧ w.screen.sameSize w2.screen := by
  have hloop : ∀ w1 : World α, w1.screen.canvas.isRect W H → w.screen.sameSize w1.screen →
      rangeEntities (drawEntity A) w1.screen.Entities.length 0 (none, w1) = some w2 →
      w2.screen.canvas.isRect W H ∧ w.screen.sameSize w2.screen := by
    intro w1 hr1 hs1 h1
    obtain ⟨v, hv, hrv, hsv⟩ := drawLoop_of_isRect A w1 W H hr1
    rw [hv] at h1
    rw [← Option.some.inj h1]
    exact ⟨hrv, Screen.sameSize_trans _ _ _ hs1 hsv⟩
  unfold Screen.paintAll at h
  cases hl : w.screen.level with
  | none =>
    rw [hl] at h
    exact hloop w hrect w.screen.sameSize_refl h
  | some l =>
    rw [hl] at h
    simp only at h
    obtain ⟨wa, ha, hra, hsa, _⟩ :=
      paintOnce_of_isRect A (A.levelDrawBackground l) (Call.levelDrawBackground l) w W H hrect
    rw [ha] at h
    simp only at h
    cases hl2 : wa.screen.level with
    | none => rw [hl2] at h; exact Option.noConfusion h
    | some l2 =>
      rw [hl2] at h
      simp only at h
      obtain ⟨wb, hb, hrb, hsb, _⟩ :=
        paintOnce_of_isRect A (A.levelDraw l2) (Call.levelDraw l2) wa W H hra
      rw [hb] at h
      exact hloop wb hrb (Screen.sameSize_trans _ _ _ hsa hsb) h

/-! ## Painters that only render -/

theorem Screen.RenderCell_scene (s s2 : Screen) (x y : Int) (c : Cell)
    (h : s.RenderCell x y c = some s2) :
    s2.level = s.level ∧ s2.Entities = s.Entities := by
  unfold Screen.RenderCell at h
  by_cases h1 : 0 ≤ wrapInt (x + s.offsetx) ∧
      wrapInt (x + s.offsetx) < (s.canvas.length : Int) ∧ 0 ≤ wrapInt (y + s.offsety)
  · simp only [h1, and_self, if_true] at h
    cases h0 : s.canvas[0]? with
    | none => rw [h0] at h; exact Option.noConfusion h
    | some col0 =>
      rw [h0] at h
      by_cases h2 : wrapInt (y + s.offsety) < (col0.length : Int)
      · simp only [h2, if_true] at h
        cases h3 : s.canvas.cellAt (wrapInt (x + s.offsetx)).toNat
            (wrapInt (y + s.offsety)).toNat with
        | none => rw [h3] at h; exact Option.noConfusion h
        | some old =>
          rw [h3] at h
          simp only at h
          cases h4 : s.canvas.setCell (wrapInt (x + s.offsetx)).toNat
              (wrapInt (y + s.offsety)).toNat (renderCell old c) with
          | none => rw [h4] at h; exact Option.noConfusion h
          | some cv =>
            rw [h4] at h
            rw [← Option.some.inj h]
            exact ⟨rfl, rfl⟩
      · simp only [h2, if_false] at h
        rw [← Option.some.inj h]
        exact ⟨rfl, rfl⟩
  · simp only [h1, if_false] at h
    rw [← Option.some.inj h]
    exact ⟨rfl, rfl⟩

theorem runOps_scene :
    ∀ (ops : List ScreenOp) (s s2 : Screen), (∀ op ∈ ops, op.renders = true) →
      runOps ops s = some s2 → s2.level = s.level ∧ s2.Entities = s.Entities := by
  intro ops
  induction ops with
  | nil =>
    intro s s2 _ h
    rw [← Option.some.inj h]
    exact ⟨rfl, rfl⟩
  | cons op rest ih =>
    intro s s2 hops h
    have hop := hops op (List.mem_cons_self _ _)
    have hrest : ∀ o ∈ rest, o.renders = true := fun o ho => hops o (List.mem_cons_of_mem _ ho)
    simp only [runOps] at h
    cases h1 : op.apply s with
    | none => rw [h1] at h; exact Option.noConfusion h
    | some s1 =>
      rw [h1] at h
      obtain ⟨a1, a2⟩ := ih s1 s2 hrest h
      have hs1 : s1.level = s.level ∧ s1.Entities = s.Entities := by
        cases op with
        | scene sop => exact Bool.noConfusion hop
        | setOffset x y =>
          rw [← Option.some.inj h1]
          exact ⟨rfl, rfl⟩
        | RenderCell x y c => exact Screen.RenderCell_scene s s1 x y c h1
      exact ⟨a1.trans hs1.1, a2.trans hs1.2⟩

/-- Rendering calls act on the screen alone. -/
theorem runPaint_renders {α : Type} (A : App α) :
    ∀ (ops : List ScreenOp) (st : LoopState α), (∀ op ∈ ops, op.renders = true) →
      runPaint A ops st
        = (runOps ops st.2.screen).map
            (fun s2 => ((st.1, { st.2 with screen := s2 }) : LoopState α)) := by
  intro ops
  induction ops with
  | nil => intro st _; rfl
  | cons op rest ih =>
    intro st hops
    have hop := hops op (List.mem_cons_self _ _)
    have hrest : ∀ o ∈ rest, o.renders = true := fun o ho => hops o (List.mem_cons_of_mem _ ho)
    have e : runPaint A (op :: rest) st
        = (match op.apply st.2.screen with
           | none => none
           | some s2 => runPaint A rest (st.1, { st.2 with screen := s2 })) := by
      cases op with
      | scene sop => exact Bool.noConfusion hop
      | setOffset x y => rfl
      | RenderCell x y c => rfl
    rw [e]
    simp only [runOps]
    cases h1 : op.apply st.2.screen with
    | none => rfl
    | some s1 =>
      simp only
      rw [ih _ hrest]

theorem paintOnce_renders {α : Type} (A : App α) (p : α → Screen → List ScreenOp × α)
    (call : Call) (w : World α) (hp : ∀ op ∈ (p w.app w.screen).1, op.renders = true) :
    paintOnce A p call w
      = (match runOps (p w.app w.screen).1 w.screen with
         | none => none
         | some s2 =>
           some { w with screen := s2, app := (p w.app w.screen).2,
                         trace := w.trace ++ [call] }) := by
  unfold paintOnce paint
  simp only
  rw [runPaint_renders A _ _ hp]
  cases runOps (p w.app w.screen).1 w.screen <;> rfl

theorem drawEntity_renders {α : Type} (A : App α) (e : Drawable) (w : World α)
    (hp : ∀ op ∈ (A.entityDraw e w.app w.screen).1, op.renders = true) :
    drawEntity A e (none, w)
      = (paintOnce A (A.entityDraw e) (Call.entityDraw e) w).map
          (fun w2 => ((none, w2) : LoopState α)) := by
  rw [paintOnce_renders A _ _ w hp]
  unfold drawEntity paint
  simp only
  rw [runPaint_renders A _ _ hp]
  cases runOps (A.entityDraw e w.app w.screen).1 w.screen <;> rfl

/-- A rendering call on a rectangular canvas returns and changes the canvas
and the offset only. -/
theorem paintOnce_steps {α : Type} (A : App α) (p : α → Screen → List ScreenOp × α)
    (call : Call) (w : World α) (W H : Nat) (hrect : w.screen.canvas.isRect W H)
    (hp : ∀ op ∈ (p w.app w.screen).1, op.renders = true) :
    ∃ w2, paintOnce A p call w = some w2 ∧ w2.screen.canvas.isRect W H ∧
      w.screen.sameFrame w2.screen ∧ w2.trace = w.trace ++ [call] ∧
      runOps (p w.app w.screen).1 w.screen = some w2.screen ∧
      w2.spare = w.spare ∧ w2.free = w.free := by
  obtain ⟨s2, h2, hr2, hf2⟩ := runOps_of_isRect W H (p w.app w.screen).1 w.screen hp hrect
  refine ⟨{ w with screen := s2, app := (p w.app w.screen).2, trace := w.trace ++ [call] },
    ?_, hr2, hf2, rfl, h2, rfl, rfl⟩
  rw [paintOnce_renders A p call w hp, h2]

/-- When a rendering call returns, the array behind `s.Entities` is as it was. -/
theorem paintOnce_array {α : Type} (A : App α) (p : α → Screen → List ScreenOp × α)
    (call : Call) (w w2 : World α) (hp : ∀ op ∈ (p w.app w.screen).1, op.renders = true)
    (h : paintOnce A p call w = some w2) :
    w2.array = w.array ∧ w2.screen.level = w.screen.level ∧
    w2.screen.Entities = w.screen.Entities := by
  rw [paintOnce_renders A p call w hp] at h
  cases hr : runOps (p w.app w.screen).1 w.screen with
  | none => rw [hr] at h; exact Option.noConfusion h
  | some s2 =>
    rw [hr] at h
    obtain ⟨a1, a2⟩ := runOps_scene _ _ _ hp hr
    rw [← Option.some.inj h]
    refine ⟨?_, a1, a2⟩
    show s2.Entities ++ w.spare = w.screen.Entities ++ w.spare
    rw [a2]

/-- With painters that only render, the loop of `Draw` calls `Draw` on the
slots of the array in order: the array stays as it is. -/
theorem drawLoop_renders {α : Type} (A : App α)
    (hA : ∀ e a s, ∀ op ∈ (A.entityDraw e a s).1, op.renders = true) :
    ∀ (k i : Nat) (w : World α), i + k ≤ w.array.length →
      rangeEntities (drawEntity A) k i (none, w)
        = ((w.array.drop i).take k).foldlM
            (fun acc e => paintOnce A (A.entityDraw e) (Call.entityDraw e) acc) w := by
  intro k
  induction k with
  | zero => intro i w _; rfl
  | succ k ih =>
    intro i w hlen
    have hi : i < w.array.length := by omega
    have hd : w.array.drop i = w.array.get ⟨i, hi⟩ :: w.array.drop (i + 1) := by
      rw [List.drop_eq_getElem_cons hi]; rfl
    have hg : LoopState.view ((none, w) : LoopState α) = w.array := rfl
    have hge : w.array[i]? = some (w.array.get ⟨i, hi⟩) := by
      rw [List.getElem?_eq_getElem hi]; rfl
    rw [hd]
    simp only [rangeEntities, hg, hge, List.take_succ_cons, List.foldlM_cons]
    rw [drawEntity_renders A _ w (hA _ _ _)]
    cases hp : paintOnce A (A.entityDraw (w.array.get ⟨i, hi⟩))
        (Call.entityDraw (w.array.get ⟨i, hi⟩)) w with
    | none => rfl
    | some w1 =>
      obtain ⟨a1, _, _⟩ := paintOnce_array A _ _ w w1 (hA _ _ _) hp
      simp only [Option.map_some', Option.some_bind, Option.bind_eq_bind]
      rw [ih (i + 1) w1 (by rw [a1]; omega), a1]

/-- With painters that only render, the painting calls of `Draw` are the
level's two calls and then one call per element of `Entities`, in order. -/
theorem Screen.paintAll_renders {α : Type} (A : App α) (hA : A.rendersOnly) (w : World α) :
    Screen.paintAll A w
      = (match (match w.screen.level with
                | some l =>
                  match paintOnce A (A.levelDrawBackground l) (Call.levelDrawBackground l)
                      w with
                  | none => none
                  | some w2 => paintOnce A (A.levelDraw l) (Call.levelDraw l) w2
                | none => some w) with
         | none => none
         | some w2 =>
           w2.screen.Entities.foldlM
             (fun acc e => paintOnce A (A.entityDraw e) (Call.entityDraw e) acc) w2) := by
  obtain ⟨hbg, hfg, hent⟩ := hA
  have hloop : ∀ v : World α,
      rangeEntities (drawEntity A) v.screen.Entities.length 0 (none, v)
        = v.screen.Entities.foldlM
            (fun acc e => paintOnce A (A.entityDraw e) (Call.entityDraw e) acc) v := by
    intro v
    rw [drawLoop_renders A hent v.screen.Entities.length 0 v
      (by simp [World.array])]
    simp [World.array]
  unfold Screen.paintAll
  cases hl : w.screen.level with
  | none => exact hloop w
  | some l =>
    simp only
    cases ha : paintOnce A (A.levelDrawBackground l) (Call.levelDrawBackground l) w with
    | none => rfl
    | some wa =>
      obtain ⟨_, a2, _⟩ := paintOnce_array A _ _ w wa (hbg l _ _) ha
      simp only
      rw [a2, hl]
      simp only
      cases hb : paintOnce A (A.levelDraw l) (Call.levelDraw l) wa with
      | none => rfl
      | some wb => exact hloop wb

/-! ## A frame drawn by painters that only render -/

theorem runOps_append :
    ∀ (a b : List ScreenOp) (s : Screen),
      runOps (a ++ b) s = (runOps a s).bind (runOps b) := by
  intro a
  induction a with
  | nil => intro b s; rfl
  | cons op rest ih =>
    intro b s
    simp only [List.cons_append, runOps]
    cases op.apply s with
    | none => rfl
    | some s2 => exact ih b s2

theorem paintEntities_steps {α : Type} (A : App α) (W H : Nat)
    (hA : ∀ e a s, ∀ op ∈ (A.entityDraw e a s).1, op.renders = true) :
    ∀ (es : List Drawable) (w : World α), w.screen.canvas.isRect W H →
      ∃ (w2 : World α) (steps : List (Call × List ScreenOp)),
        es.foldlM (fun acc e => paintOnce A (A.entityDraw e) (Call.entityDraw e) acc) w
          = some w2 ∧
        w2.screen.canvas.isRect W H ∧ w.screen.sameFrame w2.screen ∧
        w2.trace = w.trace ++ es.map Call.entityDraw ∧
        steps.map Prod.fst = es.map Call.entityDraw ∧
        (∀ st ∈ steps, issuedBy A st.1 st.2) ∧
        runOps (steps.map Prod.snd).flatten w.screen = some w2.screen := by
  intro es
  induction es with
  | nil =>
    intro w hrect
    refine ⟨w, [], rfl, hrect, w.screen.sameFrame_refl, ?_, rfl, ?_, rfl⟩
    · simp
    · intro st hst
      cases hst
  | cons e rest ih =>
    intro w hrect
    obtain ⟨w1, h1, hr1, hf1, ht1, ho1, _, _⟩ :=
      paintOnce_steps A (A.entityDraw e) (Call.entityDraw e) w W H hrect (hA e _ _)
    obtain ⟨w2, steps, h2, hr2, hf2, ht2, hs2, hi2, ho2⟩ := ih w1 hr1
    refine ⟨w2, (Call.entityDraw e, (A.entityDraw e w.app w.screen).1) :: steps, ?_, hr2,
      Screen.sameFrame_trans _ _ _ hf1 hf2, ?_, ?_, ?_, ?_⟩
    · simp [List.foldlM_cons, h1, h2]
    · rw [ht2, ht1]; simp
    · simp [hs2]
    · intro st hst
      rcases List.mem_cons.mp hst with hst | hst
      · rw [hst]; exact ⟨w.app, w.screen, rfl⟩
      · exact hi2 st hst
    · simp only [List.map_cons, List.flatten_cons]
      rw [runOps_append, ho1]
      exact ho2

theorem Screen.paintAll_steps {α : Type} (A : App α) (hA : A.rendersOnly) (w : World α)
    (W H : Nat) (hrect : w.screen.canvas.isRect W H) :
    ∃ (w2 : World α) (steps : List (Call × List ScreenOp)),
      Screen.paintAll A w = some w2 ∧ w2.screen.canvas.isRect W H ∧
      w.screen.sameFrame w2.screen ∧ w2.trace = w.trace ++ paintCalls w.screen ∧
      steps.map Prod.fst = paintCalls w.screen ∧
      (∀ st ∈ steps, issuedBy A st.1 st.2) ∧
      runOps (steps.map Prod.snd).flatten w.screen = some w2.screen := by
  rw [Screen.paintAll_renders A hA]
  unfold paintCalls
  cases hl : w.screen.level with
  | none =>
    obtain ⟨w2, steps, h2, hr2, hf2, ht2, hs2, hi2, ho2⟩ :=
      paintEntities_steps A W H hA.2.2 w.screen.Entities w hrect
    exact ⟨w2, steps, by simpa using h2, hr2, hf2, by simpa using ht2, by simpa using hs2,
      hi2, ho2⟩
  | some l =>
    obtain ⟨wa, ha, hra, hfa, hta, hoa, _, _⟩ :=
      paintOnce_steps A (A.levelDrawBackground l) (Call.levelDrawBackground l) w W H hrect
        (hA.1 l _ _)
    obtain ⟨wb, hb, hrb, hfb, htb, hob, _, _⟩ :=
      paintOnce_steps A (A.levelDraw l) (Call.levelDraw l) wa W H hra (hA.2.1 l _ _)
    obtain ⟨w2, steps, h2, hr2, hf2, ht2, hs2, hi2, ho2⟩ :=
      paintEntities_steps A W H hA.2.2 wb.screen.Entities wb hrb
    have hE : wb.screen.Entities = w.screen.Entities := by
      rw [hfb.2.2.1, hfa.2.2.1]
    refine ⟨w2,
      (Call.levelDrawBackground l, (A.levelDrawBackground l w.app w.screen).1)
        :: (Call.levelDraw l, (A.levelDraw l wa.app wa.screen).1) :: steps,
      ?_, hr2, Screen.sameFrame_trans _ _ _ (Screen.sameFrame_trans _ _ _ hfa hfb) hf2,
      ?_, ?_, ?_, ?_⟩
    · simp only [ha, hb]
      exact h2
    · rw [ht2, htb, hta, hE]; simp
    · simp [hs2, hE]
    · intro st hst
      rcases List.mem_cons.mp hst with hst | hst
      · rw [hst]; exact ⟨w.app, w.screen, rfl⟩
      · rcases List.mem_cons.mp hst with hst | hst
        · rw [hst]; exact ⟨wa.app, wa.screen, rfl⟩
        · exact hi2 st hst
    · simp only [List.map_cons, List.flatten_cons]
      rw [runOps_append, hoa, Option.some_bind, runOps_append, hob]
      exact ho2

/-- On a screen with `width >= 0` and `height >= 0` the painting part of
`Draw` returns when the painters only render; the canvas is `width` by
`height`, the painting calls were made in order, and only the canvas and the
offset changed. -/
theorem Screen.drawPaint_spec {α : Type} (A : App α) (hA : A.rendersOnly) (w : World α)
    (hw : 0 ≤ w.screen.width) (hh : 0 ≤ w.screen.height) :
    ∃ w2, Screen.drawPaint A w = some w2 ∧
      w2.screen.canvas.isRect w.screen.width.toNat w.screen.height.toNat ∧
      w.screen.sameFrame w2.screen ∧ w2.trace = w.trace ++ paintCalls w.screen := by
  unfold Screen.drawPaint
  rw [NewCanvas_of_nonneg _ _ hw hh]
  obtain ⟨w2, _, h2, hr2, hf2, ht2, _⟩ :=
    Screen.paintAll_steps A hA
      { w with screen := { w.screen with
          canvas := List.replicate w.screen.width.toNat
            (List.replicate w.screen.height.toNat Cell.zero) } }
      w.screen.width.toNat w.screen.height.toNat (isRect_replicate _ _)
  exact ⟨w2, h2, hr2, hf2, ht2⟩

/-- On a screen whose previous canvas is absent, or rectangular on a screen
with at least one column, `Draw` with painters that only render returns,
flushes exactly when the painted canvas differs from the previous one, and
stores the painted canvas as the previous one. -/
theorem Screen.Draw_of_shape {α : Type} (A : App α) (hA : A.rendersOnly) (w : World α)
    (hw : 0 ≤ w.screen.width) (hh : 0 ≤ w.screen.height)
    (hold : ∀ d, w.screen.oldCanvas = some d →
      0 < w.screen.width ∧ ∃ W2 H2, d.isRect W2 H2) :
    ∃ w1 w2, Screen.drawPaint A w = some w1 ∧ Screen.Draw A w = some w2 ∧
      w2.screen = { w1.screen with oldCanvas := some w1.screen.canvas } ∧
      w2.app = w1.app ∧
      w2.trace = (if some w1.screen.canvas = w.screen.oldCanvas then w1.trace
                  else w1.trace ++ flushCalls w1.screen.canvas) := by
  obtain ⟨w1, h1, hr1, hf1, ht1⟩ := Screen.drawPaint_spec A hA w hw hh
  have hfl : ∃ b, w1.screen.canvas.equals w1.screen.oldCanvas = some b ∧
      (b = true ↔ some w1.screen.canvas = w.screen.oldCanvas) := by
    cases ho : w.screen.oldCanvas with
    | none =>
      have e : w1.screen.oldCanvas = none := by rw [hf1.1, ho]
      exact ⟨false, by rw [e]; rfl, by simp⟩
    | some d =>
      obtain ⟨hpos0, W2, H2, hd⟩ := hold d ho
      have hpos : 0 < w.screen.width.toNat := by omega
      have e : w1.screen.oldCanvas = some d := by rw [hf1.1, ho]
      refine ⟨decide (w1.screen.canvas = d), ?_, by simp⟩
      rw [e]
      exact Canvas.equals_of_isRect w1.screen.canvas d _ _ W2 H2 hr1 hd hpos
  obtain ⟨b, hb, hbiff⟩ := hfl
  cases b with
  | true =>
    have hc : some w1.screen.canvas = w.screen.oldCanvas := hbiff.mp rfl
    refine ⟨w1, { w1 with screen := { w1.screen with oldCanvas := some w1.screen.canvas } },
      h1, ?_, rfl, rfl, ?_⟩
    · simp [Screen.Draw, h1, hb]
    · simp [hc]
  | false =>
    have hc : ¬ some w1.screen.canvas = w.screen.oldCanvas := by
      intro h
      have := hbiff.mpr h
      exact Bool.noConfusion this
    refine ⟨w1, { w1 with screen := { w1.screen with oldCanvas := some w1.screen.canvas },
                          trace := w1.trace ++ flushCalls w1.screen.canvas },
      h1, ?_, rfl, rfl, ?_⟩
    · simp [Screen.Draw, h1, hb]
    · simp [hc]

/-- On a screen with at least one column `Draw` with painters that only
render returns, flushes exactly when the painted canvas differs from the
previous one, and stores the painted canvas as the previous one. -/
theorem Screen.Draw_of_pos {α : Type} (A : App α) (hA : A.rendersOnly) (w : World α)
    (hw : 0 < w.screen.width) (hh : 0 ≤ w.screen.height)
    (hold : ∀ d, w.screen.oldCanvas = some d → ∃ W2 H2, d.isRect W2 H2) :
    ∃ w1 w2, Screen.drawPaint A w = some w1 ∧ Screen.Draw A w = some w2 ∧
      w2.screen = { w1.screen with oldCanvas := some w1.screen.canvas } ∧
      w2.app = w1.app ∧
      w2.trace = (if some w1.screen.canvas = w.screen.oldCanvas then w1.trace
                  else w1.trace ++ flushCalls w1.screen.canvas) :=
  Screen.Draw_of_shape A hA w (le_of_lt hw) hh (fun d hd => ⟨hw, hold d hd⟩)

/-! ## Two frames in a row -/

theorem Screen.RenderCell_oldCanvas (s : Screen) (o : Option Canvas) (x y : Int) (c : Cell) :
    Screen.RenderCell { s with oldCanvas := o } x y c
      = (s.RenderCell x y c).map (fun t => { t with oldCanvas := o }) := by
  unfold Screen.RenderCell
  by_cases h1 : 0 ≤ wrapInt (x + s.offsetx) ∧
      wrapInt (x + s.offsetx) < (s.canvas.length : Int) ∧ 0 ≤ wrapInt (y + s.offsety)
  · simp only [h1, and_self, if_true]
    cases h0 : s.canvas[0]? with
    | none => rfl
    | some col0 =>
      by_cases h2 : wrapInt (y + s.offsety) < (col0.length : Int)
      · simp only [h2, if_true]
        cases h3 : s.canvas.cellAt (wrapInt (x + s.offsetx)).toNat
            (wrapInt (y + s.offsety)).toNat with
        | none => rfl
        | some old =>
          cases h4 : s.canvas.setCell (wrapInt (x + s.offsetx)).toNat
              (wrapInt (y + s.offsety)).toNat (renderCell old c) with
          | none => simp [h4]
          | some cv => simp [h4]
      · simp only [h2, if_false, Option.map_some']
  · simp only [h1, if_false, Option.map_some']

theorem SceneOp.apply_oldCanvas (op : SceneOp) (s : Screen) (o : Option Canvas) :
    op.apply { s with oldCanvas := o } = { op.apply s with oldCanvas := o } := by
  cases op with
  | AddEntity d => rfl
  | SetLevel l => rfl
  | RemoveEntity d =>
    simp only [SceneOp.apply, Screen.RemoveEntity]
    cases s.Entities.findIdx? (fun elem => elem == d) <;> rfl

theorem runOps_oldCanvas (o : Option Canvas) :
    ∀ (ops : List ScreenOp) (s : Screen),
      runOps ops { s with oldCanvas := o }
        = (runOps ops s).map (fun t => { t with oldCanvas := o }) := by
  intro ops
  induction ops with
  | nil => intro s; rfl
  | cons op rest ih =>
    intro s
    cases op with
    | setOffset x y =>
      have := ih (s.setOffset x y)
      simpa [runOps, ScreenOp.apply, Screen.setOffset] using this
    | scene sop =>
      have := ih (sop.apply s)
      simpa [runOps, ScreenOp.apply, SceneOp.apply_oldCanvas] using this
    | RenderCell x y c =>
      simp only [runOps, ScreenOp.apply, Screen.RenderCell_oldCanvas]
      cases h : s.RenderCell x y c with
      | none => rfl
      | some t => simpa using ih t

theorem paintOnce_oldCanvas {α : Type} (A : App α) (p : α → Screen → List ScreenOp × α)
    (ops : List ScreenOp) (hp : ∀ a s, (p a s).1 = ops)
    (hops : ∀ op ∈ ops, op.renders = true) (call : Call) (w w1 v : World α)
    (o : Option Canvas) (hv : v.screen = { w.screen with oldCanvas := o })
    (h : paintOnce A p call w = some w1) :
    ∃ v1, paintOnce A p call v = some v1 ∧ v1.screen = { w1.screen with oldCanvas := o } ∧
      v1.trace = v.trace ++ [call] := by
  rw [paintOnce_renders A p call w (by rw [hp]; exact hops)] at h
  rw [paintOnce_renders A p call v (by rw [hp]; exact hops)]
  simp only [hp] at h ⊢
  rw [hv, runOps_oldCanvas]
  cases hr : runOps ops w.screen with
  | none => rw [hr] at h; exact Option.noConfusion h
  | some t =>
    rw [hr] at h
    have hw1 : w1.screen = t := by rw [← Option.some.inj h]
    exact ⟨_, rfl, by rw [hw1], rfl⟩

theorem paintEntities_oldCanvas {α : Type} (A : App α) (ent : Drawable → List ScreenOp)
    (hp : ∀ e a s, (A.entityDraw e a s).1 = ent e)
    (hops : ∀ e, ∀ op ∈ ent e, op.renders = true) (o : Option Canvas) :
    ∀ (es : List Drawable) (w w1 v : World α),
      v.screen = { w.screen with oldCanvas := o } →
      es.foldlM (fun acc e => paintOnce A (A.entityDraw e) (Call.entityDraw e) acc) w = some w1 →
      ∃ v1, es.foldlM (fun acc e => paintOnce A (A.entityDraw e) (Call.entityDraw e) acc) v
          = some v1 ∧
        v1.screen = { w1.screen with oldCanvas := o } ∧
        v1.trace = v.trace ++ es.map Call.entityDraw := by
  intro es
  induction es with
  | nil =>
    intro w w1 v hv h
    have hw : w1 = w := by
      simp only [List.foldlM_nil] at h
      exact (Option.some.inj h).symm
    exact ⟨v, rfl, by rw [hv, hw], by simp⟩
  | cons e rest ih =>
    intro w w1 v hv h
    simp only [List.foldlM_cons] at h ⊢
    cases hpw : paintOnce A (A.entityDraw e) (Call.entityDraw e) w with
    | none => rw [hpw] at h; exact Option.noConfusion h
    | some wa =>
      rw [hpw] at h
      obtain ⟨va, hva, hvs, hvt⟩ :=
        paintOnce_oldCanvas A (A.entityDraw e) (ent e) (hp e) (hops e) (Call.entityDraw e) w wa v o
          hv hpw
      obtain ⟨v1, hv1, hv1s, hv1t⟩ := ih wa w1 va hvs h
      refine ⟨v1, ?_, hv1s, ?_⟩
      · rw [hva]; exact hv1
      · rw [hv1t, hvt]; simp

theorem Screen.paintAll_oldCanvas {α : Type} (A : App α) (bg fg : Level → List ScreenOp)
    (ent : Drawable → List ScreenOp) (hA : A.paintsTheSame bg fg ent) (hR : A.rendersOnly)
    (o : Option Canvas)
    (w w1 v : World α) (hv : v.screen = { w.screen with oldCanvas := o })
    (h : Screen.paintAll A w = some w1) :
    ∃ v1, Screen.paintAll A v = some v1 ∧ v1.screen = { w1.screen with oldCanvas := o } := by
  obtain ⟨hbg, hfg, hent⟩ := hA
  have hlv : v.screen.level = w.screen.level := by rw [hv]
  have hRbg : ∀ l, ∀ op ∈ bg l, op.renders = true := by
    intro l op hop
    have := hR.1 l w.app w.screen op
    rw [hbg] at this
    exact this hop
  have hRfg : ∀ l, ∀ op ∈ fg l, op.renders = true := by
    intro l op hop
    have := hR.2.1 l w.app w.screen op
    rw [hfg] at this
    exact this hop
  have hRent : ∀ e, ∀ op ∈ ent e, op.renders = true := by
    intro e op hop
    have := hR.2.2 e w.app w.screen op
    rw [hent] at this
    exact this hop
  rw [Screen.paintAll_renders A hR] at h ⊢
  rw [hlv]
  cases hl : w.screen.level with
  | none =>
    rw [hl] at h
    simp only at h ⊢
    have hE : v.screen.Entities = w.screen.Entities := by rw [hv]
    rw [hE]
    obtain ⟨v1, hv1, hv1s, _⟩ :=
      paintEntities_oldCanvas A ent hent hRent o w.screen.Entities w w1 v hv h
    exact ⟨v1, hv1, hv1s⟩
  | some l =>
    rw [hl] at h
    simp only at h ⊢
    cases ha : paintOnce A (A.levelDrawBackground l) (Call.levelDrawBackground l) w with
    | none => rw [ha] at h; exact Option.noConfusion h
    | some wa =>
      rw [ha] at h
      simp only at h
      obtain ⟨va, hva, hvas, _⟩ :=
        paintOnce_oldCanvas A (A.levelDrawBackground l) (bg l) (hbg l) (hRbg l)
          (Call.levelDrawBackground l) w wa v o hv ha
      cases hb : paintOnce A (A.levelDraw l) (Call.levelDraw l) wa with
      | none => rw [hb] at h; exact Option.noConfusion h
      | some wb =>
        rw [hb] at h
        simp only at h
        obtain ⟨vb, hvb, hvbs, _⟩ :=
          paintOnce_oldCanvas A (A.levelDraw l) (fg l) (hfg l) (hRfg l) (Call.levelDraw l) wa wb va o
            hvas hb
        have hE : vb.screen.Entities = wb.screen.Entities := by rw [hvbs]
        obtain ⟨v1, hv1, hv1s, _⟩ :=
          paintEntities_oldCanvas A ent hent hRent o wb.screen.Entities wb w1 vb hvbs h
        refine ⟨v1, ?_, hv1s⟩
        rw [hva]
        simp only
        rw [hvb]
        simp only
        rw [hE]
        exact hv1

theorem Screen.eq_of_fields (s t : Screen) (h1 : s.oldCanvas = t.oldCanvas)
    (h2 : s.canvas = t.canvas) (h3 : s.level = t.level) (h4 : s.Entities = t.Entities)
    (h5 : s.width = t.width) (h6 : s.height = t.height) (h7 : s.offsetx = t.offsetx)
    (h8 : s.offsety = t.offsety) : s = t := by
  cases s; cases t; simp_all

/-- The draw-diff invariant on a screen with at least one column and no
previous canvas, whose painters only render and call the same screen methods on every call:
the first `Draw` flushes, and when it leaves the offset where it was the
second `Draw` returns without a flush and leaves the screen as it is. -/
theorem Screen.Draw_twice_of_pos {α : Type} (A : App α) (bg fg : Level → List ScreenOp)
    (ent : Drawable → List ScreenOp) (hA : A.paintsTheSame bg fg ent) (hR : A.rendersOnly)
    (w : World α)
    (hw : 0 < w.screen.width) (hh : 0 ≤ w.screen.height)
    (hnew : w.screen.oldCanvas = none) :
    ∃ wa, Screen.Draw A w = some wa ∧
      wa.trace = w.trace ++ paintCalls w.screen ++ flushCalls wa.screen.canvas ∧
      (wa.screen.offsetx = w.screen.offsetx → wa.screen.offsety = w.screen.offsety →
        ∃ wb, Screen.Draw A wa = some wb ∧
          wb.trace = wa.trace ++ paintCalls w.screen ∧ wb.screen = wa.screen) := by
  obtain ⟨p1, hp1, hr1, hf1, ht1⟩ := Screen.drawPaint_spec A hR w (le_of_lt hw) hh
  obtain ⟨w1, wa, h1, hDa, hsa, _, hta⟩ :=
    Screen.Draw_of_pos A hR w hw hh (by intro d hd; rw [hnew] at hd; exact Option.noConfusion hd)
  have e1 : w1 = p1 := by
    rw [hp1] at h1; exact (Option.some.inj h1).symm
  subst e1
  have hcanvas : wa.screen.canvas = w1.screen.canvas := by rw [hsa]
  refine ⟨wa, hDa, ?_, ?_⟩
  · rw [hta, hnew, ht1, hcanvas]; simp
  · intro hox hoy
    obtain ⟨hf_old, hf_lv, hf_E, hf_w, hf_h⟩ := hf1
    have hwa_w : wa.screen.width = w.screen.width := by rw [hsa]; exact hf_w
    have hwa_h : wa.screen.height = w.screen.height := by rw [hsa]; exact hf_h
    have hwa_old : wa.screen.oldCanvas = some w1.screen.canvas := by rw [hsa]
    obtain ⟨q1, wb, hq1, hDb, hsb, _, htb⟩ :=
      Screen.Draw_of_pos A hR wa (by rw [hwa_w]; exact hw) (by rw [hwa_h]; exact hh)
        (by
          intro d hd
          rw [hwa_old] at hd
          rw [← Option.some.inj hd]
          exact ⟨_, _, hr1⟩)
    obtain ⟨q2, hq2, _, _, htq⟩ :=
      Screen.drawPaint_spec A hR wa (by rw [hwa_w]; exact le_of_lt hw) (by rw [hwa_h]; exact hh)
    have e2 : q1 = q2 := by
      rw [hq2] at hq1; exact (Option.some.inj hq1).symm
    subst e2
    -- the second frame starts from the first frame's start, previous canvas apart
    have hstart1 : Screen.paintAll A
        { w with screen := { w.screen with
            canvas := List.replicate w.screen.width.toNat
              (List.replicate w.screen.height.toNat Cell.zero) } } = some w1 := by
      have := hp1
      unfold Screen.drawPaint at this
      rw [NewCanvas_of_nonneg _ _ (le_of_lt hw) hh] at this
      exact this
    have hstart2 : Screen.paintAll A
        { wa with screen := { wa.screen with
            canvas := List.replicate w.screen.width.toNat
              (List.replicate w.screen.height.toNat Cell.zero) } } = some q1 := by
      have := hq1
      unfold Screen.drawPaint at this
      rw [hwa_w, hwa_h, NewCanvas_of_nonneg _ _ (le_of_lt hw) hh] at this
      exact this
    obtain ⟨v1, hv1, hv1s⟩ :=
      Screen.paintAll_oldCanvas A bg fg ent hA hR (some w1.screen.canvas)
        { w with screen := { w.screen with
            canvas := List.replicate w.screen.width.toNat
              (List.replicate w.screen.height.toNat Cell.zero) } }
        w1
        { wa with screen := { wa.screen with
            canvas := List.replicate w.screen.width.toNat
              (List.replicate w.screen.height.toNat Cell.zero) } }
        (by
          apply Screen.eq_of_fields
          · exact hwa_old
          · rfl
          · show wa.screen.level = w.screen.level
            rw [hsa]; exact hf_lv
          · show wa.screen.Entities = w.screen.Entities
            rw [hsa]; exact hf_E
          · exact hwa_w
          · exact hwa_h
          · exact hox
          · exact hoy)
        hstart1
    have e3 : q1 = v1 := by
      rw [hv1] at hstart2; exact (Option.some.inj hstart2).symm
    subst e3
    have hqc : q1.screen.canvas = w1.screen.canvas := by rw [hv1s]
    have hpc : paintCalls wa.screen = paintCalls w.screen := by
      unfold paintCalls
      have a1 : wa.screen.level = w.screen.level := by rw [hsa]; exact hf_lv
      have a2 : wa.screen.Entities = w.screen.Entities := by rw [hsa]; exact hf_E
      rw [a1, a2]
    refine ⟨wb, hDb, ?_, ?_⟩
    · rw [htb, hwa_old, hqc, htq, hpc]; simp
    · rw [hsb, hv1s, hsa]

/-! ## Consecutive frames -/

/-- What `Draw` needs of the previous canvas: it is absent or rectangular. -/
theorem Screen.Draw_keeps_shape {α : Type} (A : App α) (hA : A.rendersOnly) (w : World α)
    (hw : 0 < w.screen.width) (hh : 0 ≤ w.screen.height)
    (hold : ∀ d, w.screen.oldCanvas = some d → ∃ W2 H2, d.isRect W2 H2) :
    ∃ w2, Screen.Draw A w = some w2 ∧ w2.screen.width = w.screen.width ∧
      w2.screen.height = w.screen.height ∧
      w2.screen.canvas.isRect w.screen.width.toNat w.screen.height.toNat ∧
      w2.screen.oldCanvas = some w2.screen.canvas := by
  obtain ⟨p1, hp1, hr1, hf1, _⟩ := Screen.drawPaint_spec A hA w (le_of_lt hw) hh
  obtain ⟨w1, w2, h1, hD, hs, _, _⟩ := Screen.Draw_of_pos A hA w hw hh hold
  have e1 : w1 = p1 := by
    rw [hp1] at h1; exact (Option.some.inj h1).symm
  subst e1
  obtain ⟨_, _, _, hfw, hfh⟩ := hf1
  refine ⟨w2, hD, ?_, ?_, ?_, ?_⟩
  · rw [hs]; exact hfw
  · rw [hs]; exact hfh
  · rw [hs]; exact hr1
  · rw [hs]

/-- On a screen with at least one column any number of consecutive `Draw`
calls returns, when the painters only render. -/
theorem Screen.drawN_of_pos {α : Type} (A : App α) (hA : A.rendersOnly) :
    ∀ (n : Nat) (w : World α), 0 < w.screen.width → 0 ≤ w.screen.height →
      (∀ d, w.screen.oldCanvas = some d → ∃ W2 H2, d.isRect W2 H2) →
      ∃ w2, Screen.drawN A n w = some w2 := by
  intro n
  induction n with
  | zero => intro w _ _ _; exact ⟨w, rfl⟩
  | succ n ih =>
    intro w hw hh hold
    obtain ⟨w1, hD, hw1, hh1, hr1, ho1⟩ := Screen.Draw_keeps_shape A hA w hw hh hold
    obtain ⟨w2, h2⟩ := ih w1 (by rw [hw1]; exact hw) (by rw [hh1]; exact hh)
      (by
        intro d hd
        rw [ho1] at hd
        rw [← Option.some.inj hd]
        exact ⟨_, _, hr1⟩)
    exact ⟨w2, by simp only [Screen.drawN, hD]; exact h2⟩

/-! ## What a frame paints -/

theorem runOps_cells (W H : Nat) :
    ∀ (ops : List ScreenOp) (s s2 : Screen), s.canvas.isRect W H →
      runOps ops s = some s2 →
      ∀ x0 y0, x0 < W → y0 < H →
        ∃ t, s.canvas.cellAt x0 y0 = some t ∧
          s2.canvas.cellAt x0 y0
            = some ((hits ops s.offsetx s.offsety x0 y0).foldl renderCell t) := by
  intro ops
  induction ops with
  | nil =>
    intro s s2 hrect h x0 y0 hx hy
    obtain ⟨t, ht⟩ := Canvas.cellAt_of_isRect s.canvas W H x0 y0 hrect hx hy
    have e : s2 = s := by
      simp only [runOps] at h
      exact (Option.some.inj h).symm
    exact ⟨t, ht, by rw [e, ht]; rfl⟩
  | cons op rest ih =>
    intro s s2 hrect h x0 y0 hx hy
    cases op with
    | setOffset a b =>
      simp only [runOps, ScreenOp.apply] at h
      obtain ⟨t, ht, hfin⟩ := ih (s.setOffset a b) s2 hrect h x0 y0 hx hy
      exact ⟨t, ht, hfin⟩
    | scene sop =>
      simp only [runOps, ScreenOp.apply] at h
      obtain ⟨c1, _, _, _, c5, c6⟩ := SceneOp.apply_sameCanvas sop s
      obtain ⟨t, ht, hfin⟩ := ih (sop.apply s) s2 (by rw [c1]; exact hrect) h x0 y0 hx hy
      rw [c1] at ht
      rw [c5, c6] at hfin
      exact ⟨t, ht, hfin⟩
    | RenderCell x y c =>
      obtain ⟨hin, hout⟩ := Screen.RenderCell_of_isRect s W H x y c hrect
      by_cases hr : 0 ≤ wrapInt (x + s.offsetx) ∧ wrapInt (x + s.offsetx) < W ∧
          0 ≤ wrapInt (y + s.offsety) ∧ wrapInt (y + s.offsety) < H
      · obtain ⟨old, cv2, hold, hrc, hrect2, hcell⟩ := hin hr
        simp only [runOps, ScreenOp.apply, hrc] at h
        obtain ⟨t1, ht1, hfin⟩ := ih { s with canvas := cv2 } s2 hrect2 h x0 y0 hx hy
        obtain ⟨t, ht⟩ := Canvas.cellAt_of_isRect s.canvas W H x0 y0 hrect hx hy
        refine ⟨t, ht, ?_⟩
        rw [hfin]
        have hc := hcell x0 y0
        by_cases hhit : wrapInt (x + s.offsetx) = x0 ∧ wrapInt (y + s.offsety) = y0
        · have e1 : x0 = (wrapInt (x + s.offsetx)).toNat := by omega
          have e2 : y0 = (wrapInt (y + s.offsety)).toNat := by omega
          have hto : t = old := by
            rw [e1, e2, hold] at ht
            exact (Option.some.inj ht).symm
          have ht1' : t1 = renderCell old c := by
            have : Canvas.cellAt cv2 x0 y0 = some (renderCell old c) := by
              rw [hc]; simp [e1.symm, e2.symm]
            have h3 : Canvas.cellAt cv2 x0 y0 = some t1 := ht1
            rw [this] at h3
            exact (Option.some.inj h3).symm
          simp only [hits, hhit, and_self, if_true, List.singleton_append, List.foldl_cons]
          rw [ht1', hto]
        · have hne : ¬ (x0 = (wrapInt (x + s.offsetx)).toNat ∧
              y0 = (wrapInt (y + s.offsety)).toNat) := by
            intro hh2
            apply hhit
            omega
          have ht1' : t1 = t := by
            have : Canvas.cellAt cv2 x0 y0 = some t := by
              rw [hc]; simp only [hne, if_false]; exact ht
            have h3 : Canvas.cellAt cv2 x0 y0 = some t1 := ht1
            rw [this] at h3
            exact (Option.some.inj h3).symm
          simp only [hits, hhit, if_false, List.nil_append]
          rw [ht1']
      · simp only [runOps, ScreenOp.apply, hout hr] at h
        obtain ⟨t, ht, hfin⟩ := ih s s2 hrect h x0 y0 hx hy
        refine ⟨t, ht, ?_⟩
        have hhit : ¬ (wrapInt (x + s.offsetx) = x0 ∧ wrapInt (y + s.offsety) = y0) := by
          intro hh2
          apply hr
          omega
        simp only [hits, hhit, if_false, List.nil_append]
        exact hfin

theorem renderCell_fields (t c : Cell) :
    (renderCell t c).Ch = (if c.Ch = 0 then t.Ch else c.Ch) ∧
    (renderCell t c).Fg = (if c.Fg = 0 then t.Fg else c.Fg) ∧
    (renderCell t c).Bg = (if c.Bg = 0 then t.Bg else c.Bg) := by
  unfold renderCell
  refine ⟨?_, ?_, ?_⟩ <;> split_ifs <;> first | rfl | contradiction

/-- The merge of a run of cells into a target keeps, in each field, the value
of the last cell of the run whose field is not zero. -/
theorem foldl_renderCell_fields :
    ∀ (cs : List Cell) (t : Cell),
      (cs.foldl renderCell t).Ch
        = (match cs.reverse.find? (fun c => decide (c.Ch ≠ 0)) with
           | some c => c.Ch
           | none => t.Ch) ∧
      (cs.foldl renderCell t).Fg
        = (match cs.reverse.find? (fun c => decide (c.Fg ≠ 0)) with
           | some c => c.Fg
           | none => t.Fg) ∧
      (cs.foldl renderCell t).Bg
        = (match cs.reverse.find? (fun c => decide (c.Bg ≠ 0)) with
           | some c => c.Bg
           | none => t.Bg) := by
  intro cs
  induction cs with
  | nil => intro t; simp
  | cons c rest ih =>
    intro t
    obtain ⟨h1, h2, h3⟩ := ih (renderCell t c)
    simp only [List.foldl_cons, List.reverse_cons, List.find?_append, h1, h2, h3]
    refine ⟨?_, ?_, ?_⟩
    · cases rest.reverse.find? (fun c => decide (c.Ch ≠ 0)) with
      | some c2 => simp
      | none =>
        by_cases hc : c.Ch = 0 <;> simp [(renderCell_fields t c).1, hc]
    · cases rest.reverse.find? (fun c => decide (c.Fg ≠ 0)) with
      | some c2 => simp
      | none =>
        by_cases hc : c.Fg = 0 <;> simp [(renderCell_fields t c).2.1, hc]
    · cases rest.reverse.find? (fun c => decide (c.Bg ≠ 0)) with
      | some c2 => simp
      | none =>
        by_cases hc : c.Bg = 0 <;> simp [(renderCell_fields t c).2.2, hc]

/-- When `Draw` returns, its canvas is the painted canvas and its calls start
with the painting calls. -/
theorem Screen.Draw_after_paint {α : Type} (A : App α) (w w1 w2 : World α)
    (h1 : Screen.drawPaint A w = some w1) (h2 : Screen.Draw A w = some w2) :
    w2.screen.canvas = w1.screen.canvas ∧
    (w2.trace = w1.trace ∨ w2.trace = w1.trace ++ flushCalls w1.screen.canvas) := by
  unfold Screen.Draw at h2
  rw [h1] at h2
  simp only at h2
  cases he : w1.screen.canvas.equals w1.screen.oldCanvas with
  | none => rw [he] at h2; exact Option.noConfusion h2
  | some b =>
    rw [he] at h2
    simp only at h2
    have e := Option.some.inj h2
    cases b with
    | true =>
      simp only [Bool.not_true, Bool.false_eq_true, if_false] at e
      rw [← e]
      exact ⟨rfl, Or.inl rfl⟩
    | false =>
      simp only [Bool.not_false, if_true] at e
      rw [← e]
      exact ⟨rfl, Or.inr rfl⟩

/-! ## The shape of the canvas -/

theorem NewCanvas_isRect (w h : Int) (cv : Canvas) (hn : NewCanvas w h = some cv) :
    cv.isRect w.toNat h.toNat := by
  unfold NewCanvas at hn
  by_cases h1 : w < 0
  · simp [h1] at hn
  · by_cases h2 : w = 0
    · simp only [h1, h2, if_false, if_true] at hn
      rw [← Option.some.inj hn, h2]
      exact ⟨rfl, fun col hcol => by cases hcol⟩
    · by_cases h3 : h < 0
      · simp [h1, h2, h3] at hn
      · simp only [h1, h2, h3, if_false] at hn
        rw [← Option.some.inj hn]
        exact isRect_replicate _ _

theorem CanvasFromString_isRect (str : String) :
    (CanvasFromString str).isRect (CanvasFromString str).length
      (splitLines str.data).length := by
  refine ⟨rfl, ?_⟩
  intro col hcol
  simp only [CanvasFromString, List.mem_map, List.mem_range] at hcol
  obtain ⟨_, _, hc⟩ := hcol
  rw [← hc]
  simp

theorem Screen.resize_of_isRect (s : Screen) (w h : Int) (oldW oldH : Nat)
    (hrect : s.canvas.isRect oldW oldH) (hw : 0 ≤ w) (hh : 0 ≤ h) :
    ∃ s2, s.resize w h = some s2 ∧ s2.width = w ∧ s2.height = h ∧
      s2.canvas.isRect w.toNat h.toNat := by
  have hm1 : (minInt w s.canvas.length).toNat = min w.toNat oldW := by
    rw [minInt_toNat w _ hw (by omega), hrect.1]; simp
  have hm2 : (minInt h oldH).toNat = min h.toNat oldH := by
    rw [minInt_toNat h _ hh (by omega)]; simp
  obtain ⟨cv2, h2, hr2, _⟩ :=
    resizeCols_spec s.canvas oldW oldH w.toNat h.toNat h hrect
      (by rw [hm2]; exact Nat.min_le_left _ _)
      (minInt w s.canvas.length).toNat
      (List.replicate w.toNat (List.replicate h.toNat Cell.zero))
      (by rw [hm1]; exact Nat.min_le_left _ _)
      (by rw [hm1]; exact Nat.min_le_right _ _)
      (isRect_replicate _ _)
  refine ⟨{ s with width := w, height := h, canvas := cv2 }, ?_, rfl, rfl, hr2⟩
  unfold Screen.resize
  simp only [NewCanvas_of_nonneg w h hw hh]
  rw [h2]

theorem Screen.resize_shapeOk (s s2 : Screen) (w h : Int) (oldW oldH : Nat)
    (hrect : s.canvas.isRect oldW oldH) (hr : s.resize w h = some s2) : s2.shapeOk := by
  by_cases hw : w < 0
  · have : NewCanvas w h = none := by simp [NewCanvas, hw]
    simp [Screen.resize, this] at hr
  · by_cases hw0 : w = 0
    · subst hw0
      have hn : NewCanvas 0 h = some [] := by simp [NewCanvas]
      have hm : (minInt 0 (s.canvas.length : Int)).toNat = 0 := by
        unfold minInt; split_ifs <;> omega
      simp only [Screen.resize, hn, hm, List.range_zero, List.foldlM_nil] at hr
      have e : s2 = { s with width := 0, height := h, canvas := [] } :=
        (Option.some.inj hr).symm
      rw [e]
      exact ⟨rfl, fun col hcol => by cases hcol⟩
    · by_cases hh : h < 0
      · have : NewCanvas w h = none := by simp [NewCanvas, hw, hw0, hh]
        simp [Screen.resize, this] at hr
      · obtain ⟨s3, h3, hw3, hh3, hr3⟩ :=
          Screen.resize_of_isRect s w h oldW oldH hrect (by omega) (by omega)
        rw [h3] at hr
        have e : s3 = s2 := Option.some.inj hr
        rw [← e]
        unfold Screen.shapeOk
        rw [hw3, hh3]
        exact hr3

theorem Screen.Draw_shapeOk {α : Type} (A : App α) (w w2 : World α)
    (h : Screen.Draw A w = some w2) : w2.screen.shapeOk := by
  cases hdp : Screen.drawPaint A w with
  | none => simp [Screen.Draw, hdp] at h
  | some w1 =>
    obtain ⟨hc, _⟩ := Screen.Draw_after_paint A w w1 w2 hdp h
    have hdp2 := hdp
    unfold Screen.drawPaint at hdp2
    cases hn : NewCanvas w.screen.width w.screen.height with
    | none => rw [hn] at hdp2; exact Option.noConfusion hdp2
    | some cv =>
      rw [hn] at hdp2
      simp only at hdp2
      obtain ⟨hr1, hf1⟩ :=
        Screen.paintAll_keeps A { w with screen := { w.screen with canvas := cv } } w1
          w.screen.width.toNat w.screen.height.toNat (NewCanvas_isRect _ _ cv hn) hdp2
      -- the width and height after `Draw` are those before
      have hwh : w2.screen.width = w.screen.width ∧ w2.screen.height = w.screen.height := by
        unfold Screen.Draw at h
        rw [hdp] at h
        simp only at h
        cases he : w1.screen.canvas.equals w1.screen.oldCanvas with
        | none => rw [he] at h; exact Option.noConfusion h
        | some b =>
          rw [he] at h
          simp only at h
          have e2 := Option.some.inj h
          rw [← e2]
          cases b <;> exact ⟨hf1.2.1, hf1.2.2⟩
      unfold Screen.shapeOk
      rw [hc, hwh.1, hwh.2]
      exact hr1

theorem Screen.RenderCell_shapeOk (s s2 : Screen) (x y : Int) (c : Cell)
    (hs : s.shapeOk) (h : s.RenderCell x y c = some s2) :
    s2.canvas.isRect s.width.toNat s.height.toNat ∧ s2.width = s.width ∧
      s2.height = s.height := by
  obtain ⟨hin, hout⟩ := Screen.RenderCell_of_isRect s _ _ x y c hs
  by_cases hr : 0 ≤ wrapInt (x + s.offsetx) ∧ wrapInt (x + s.offsetx) < s.width.toNat ∧
      0 ≤ wrapInt (y + s.offsety) ∧ wrapInt (y + s.offsety) < s.height.toNat
  · obtain ⟨old, cv2, _, hrc, hrect2, _⟩ := hin hr
    rw [hrc] at h
    rw [← Option.some.inj h]
    exact ⟨hrect2, rfl, rfl⟩
  · rw [hout hr] at h
    rw [← Option.some.inj h]
    exact ⟨hs, rfl, rfl⟩

theorem Method.apply_shapeOk {α : Type} (A : App α) (m : Method) (ss ss2 : Session α)
    (hs : ss.world.screen.shapeOk) (h : m.apply A ss = some ss2) :
    ss2.world.screen.shapeOk := by
  cases m with
  | resize w h2 =>
    simp only [Method.apply] at h
    cases hr : ss.world.screen.resize w h2 with
    | none => rw [hr] at h; exact Option.noConfusion h
    | some s =>
      rw [hr] at h
      rw [← Option.some.inj h]
      exact Screen.resize_shapeOk ss.world.screen s w h2 _ _ hs hr
  | Draw =>
    simp only [Method.apply] at h
    cases hd : Screen.Draw A ss.world with
    | none => rw [hd] at h; exact Option.noConfusion h
    | some w =>
      rw [hd] at h
      rw [← Option.some.inj h]
      exact Screen.Draw_shapeOk A ss.world w hd
  | RenderCell x y c =>
    simp only [Method.apply] at h
    cases hr : ss.world.screen.RenderCell x y c with
    | none => rw [hr] at h; exact Option.noConfusion h
    | some s =>
      rw [hr] at h
      obtain ⟨h1, h2, h3⟩ := Screen.RenderCell_shapeOk ss.world.screen s x y c hs hr
      rw [← Option.some.inj h]
      unfold Screen.shapeOk
      cases ss.shared
      · simp only [Bool.false_eq_true, if_false]
        rw [h2, h3]; exact h1
      · simp only [if_true]
        rw [h2, h3]; exact h1
  | Tick ev =>
    simp only [Method.apply] at h
    obtain ⟨w2, hw2, hc, _, hwd, hht, _⟩ := Screen.Tick_returns A ss.world ev
    rw [hw2] at h
    rw [← Option.some.inj h]
    show w2.screen.canvas.isRect w2.screen.width.toNat w2.screen.height.toNat
    rw [hc, hwd, hht]
    exact hs
  | AddEntity d =>
    simp only [Method.apply] at h
    rw [← Option.some.inj h]
    exact hs
  | RemoveEntity d =>
    simp only [Method.apply] at h
    rw [← Option.some.inj h]
    obtain ⟨hc, _, hwd, hht, _⟩ :=
      SceneOp.apply_sameCanvas (SceneOp.RemoveEntity d) ss.world.screen
    show (ss.world.screen.RemoveEntity d).canvas.isRect
      (ss.world.screen.RemoveEntity d).width.toNat (ss.world.screen.RemoveEntity d).height.toNat
    have hc2 : (ss.world.screen.RemoveEntity d).canvas = ss.world.screen.canvas := hc
    have hwd2 : (ss.world.screen.RemoveEntity d).width = ss.world.screen.width := hwd
    have hht2 : (ss.world.screen.RemoveEntity d).height = ss.world.screen.height := hht
    rw [hc2, hwd2, hht2]
    exact hs
  | setOffset x y =>
    simp only [Method.apply] at h
    rw [← Option.some.inj h]
    exact hs

theorem runMethods_shapeOk {α : Type} (A : App α) :
    ∀ (ms : List Method) (ss ss2 : Session α), ss.world.screen.shapeOk →
      runMethods A ms ss = some ss2 → ss2.world.screen.shapeOk := by
  intro ms
  induction ms with
  | nil =>
    intro ss ss2 hs h
    simp only [runMethods] at h
    rw [← Option.some.inj h]; exact hs
  | cons m rest ih =>
    intro ss ss2 hs h
    simp only [runMethods] at h
    cases hm : m.apply A ss with
    | none => rw [hm] at h; exact Option.noConfusion h
    | some ss1 =>
      rw [hm] at h
      exact ih ss1 ss2 (Method.apply_shapeOk A m ss ss1 hs hm) h

/-! ## The claims -/

/-- C1, at the failing input.  Two canvases without columns (as
`NewCanvas(0, 0)` returns them) have the same width and no cell in which they
differ, and the second is present; `equals` does not return true on them: it
reads `c[0]` and panics. -/
theorem Canvas.equals_no_columns :
    NewCanvas 0 0 = some [] ∧
    (([] : Canvas).length = ([] : Canvas).length ∧
      ∀ x y, Canvas.cellAt [] x y = Canvas.cellAt [] x y) ∧
    Canvas.equals [] (some []) = none := by
  refine ⟨rfl, ⟨rfl, fun _ _ => rfl⟩, rfl⟩

/-- C2, at the failing input.  The canvas `NewCanvas(0, 3)` compared with
itself does not give true: the comparison panics, so `equals` is not
reflexive on canvases without columns. -/
theorem Canvas.equals_not_reflexive :
    ∃ cv : Canvas, NewCanvas 0 3 = some cv ∧ cv.equals (some cv) ≠ some true := by
  refine ⟨[], rfl, by decide⟩

/-- C4.  `renderCell(t, s)` takes each of `Ch`, `Fg`, `Bg` from the source
when the source's field is not zero and keeps the target's otherwise; a
source with only `Ch` set leaves the colours of the target as they are, and
the all-zero source leaves the target as it is. -/
theorem renderCell_spec (t s : Cell) :
    (renderCell t s).Ch = (if s.Ch ≠ 0 then s.Ch else t.Ch) ∧
    (renderCell t s).Fg = (if s.Fg ≠ 0 then s.Fg else t.Fg) ∧
    (renderCell t s).Bg = (if s.Bg ≠ 0 then s.Bg else t.Bg) ∧
    (∀ ch : Rune, (renderCell t { Fg := 0, Bg := 0, Ch := ch }).Fg = t.Fg ∧
      (renderCell t { Fg := 0, Bg := 0, Ch := ch }).Bg = t.Bg ∧
      (renderCell t { Fg := 0, Bg := 0, Ch := ch }).Ch = (if ch ≠ 0 then ch else t.Ch)) ∧
    renderCell t Cell.zero = t := by
  unfold renderCell
  refine ⟨?_, ?_, ?_, ?_, ?_⟩
  · split_ifs <;> rfl
  · split_ifs <;> rfl
  · split_ifs <;> rfl
  · intro ch
    by_cases h : ch = 0 <;> simp [h]
  · simp [Cell.zero]

/-- C3.  On a screen whose canvas is `oldW` by `oldH`, `resize(w, h)` with
`w, h >= 0` returns; afterwards the width and height are `w` and `h`, the
canvas has `w` columns of `h` cells, the cell at `(x, y)` with
`x < min(oldW, w)` and `y < min(oldH, h)` is the cell that was there before
the call, every other cell is the zero cell, and no other field changes. -/
theorem Screen.resize_spec (s : Screen) (w h : Int) (oldW oldH : Nat)
    (hrect : s.canvas.isRect oldW oldH) (hw : 0 ≤ w) (hh : 0 ≤ h) :
    ∃ s2, s.resize w h = some s2 ∧ s2.width = w ∧ s2.height = h ∧
      s2.canvas.isRect w.toNat h.toNat ∧
      (∀ x y, x < w.toNat → y < h.toNat →
        s2.canvas.cellAt x y
          = if x < min oldW w.toNat ∧ y < min oldH h.toNat then s.canvas.cellAt x y
            else some Cell.zero) ∧
      s2 = { s with width := w, height := h, canvas := s2.canvas } := by
  have hm1 : (minInt w s.canvas.length).toNat = min w.toNat oldW := by
    rw [minInt_toNat w _ hw (by omega), hrect.1]; simp
  have hm2 : (minInt h oldH).toNat = min h.toNat oldH := by
    rw [minInt_toNat h _ hh (by omega)]; simp
  obtain ⟨cv2, h2, hr2, hc2⟩ :=
    resizeCols_spec s.canvas oldW oldH w.toNat h.toNat h hrect
      (by rw [hm2]; exact Nat.min_le_left _ _)
      (minInt w s.canvas.length).toNat
      (List.replicate w.toNat (List.replicate h.toNat Cell.zero))
      (by rw [hm1]; exact Nat.min_le_left _ _)
      (by rw [hm1]; exact Nat.min_le_right _ _)
      (isRect_replicate _ _)
  refine ⟨{ s with width := w, height := h, canvas := cv2 }, ?_, rfl, rfl, hr2, ?_, rfl⟩
  · unfold Screen.resize
    simp only [NewCanvas_of_nonneg w h hw hh]
    rw [h2]
  · intro x y hx hy
    show cv2.cellAt x y = _
    rw [hc2 x y, hm1, hm2, cellAt_replicate _ _ x y hx hy]
    have e1 : min w.toNat oldW = min oldW w.toNat := Nat.min_comm _ _
    have e2 : min h.toNat oldH = min oldH h.toNat := Nat.min_comm _ _
    rw [e1, e2]

/-- C3, at a 2 by 2 canvas resized to 3 by 1. -/
theorem Screen.resize_spec_witness :
    ∃ s2, Screen.resize
        { oldCanvas := none, canvas := [[⟨1, 2, 3⟩, ⟨4, 5, 6⟩], [⟨7, 8, 9⟩, ⟨1, 1, 1⟩]],
          level := none, Entities := [], width := 2, height := 2,
          offsetx := 0, offsety := 0 } 3 1 = some s2 ∧
      s2.canvas = [[⟨1, 2, 3⟩], [⟨7, 8, 9⟩], [Cell.zero]] := by
  obtain ⟨s2, h, _⟩ := Screen.resize_spec
    { oldCanvas := none, canvas := [[⟨1, 2, 3⟩, ⟨4, 5, 6⟩], [⟨7, 8, 9⟩, ⟨1, 1, 1⟩]],
      level := none, Entities := [], width := 2, height := 2,
      offsetx := 0, offsety := 0 } 3 1 2 2 (by decide) (by decide) (by decide)
  refine ⟨s2, h, ?_⟩
  have e : Screen.resize
      { oldCanvas := none, canvas := [[⟨1, 2, 3⟩, ⟨4, 5, 6⟩], [⟨7, 8, 9⟩, ⟨1, 1, 1⟩]],
        level := none, Entities := [], width := 2, height := 2,
        offsetx := 0, offsety := 0 } 3 1
      = some { oldCanvas := none, canvas := [[⟨1, 2, 3⟩], [⟨7, 8, 9⟩], [Cell.zero]],
               level := none, Entities := [], width := 3, height := 1,
               offsetx := 0, offsety := 0 } := by decide
  rw [e] at h
  rw [← Option.some.inj h]

/-- C5.  `CanvasFromString(str)` splits `str` on newline into rows (joining
the rows with newlines gives `str` back and no row holds a newline).  The
canvas has as many columns as the longest row has characters, every column
has as many cells as there are rows, and the cell `[x][y]` holds the `x`-th
character of row `y` (its code point) with `Fg = Bg = 0` when row `y` has
one, the zero cell otherwise.  `"AB\nC"` gives width 2, height 2 with the
glyphs `A` (65) and `B` (66) in row 0 and `C` (67) and a zero cell in row 1. -/
theorem CanvasFromString_spec (str : String) :
    (joinLines (splitLines str.data) = str.data ∧
      ∀ row ∈ splitLines str.data, '\n' ∉ row) ∧
    ((∀ row ∈ splitLines str.data, row.length ≤ (CanvasFromString str).length) ∧
      ∃ row ∈ splitLines str.data, row.length = (CanvasFromString str).length) ∧
    (CanvasFromString str).isRect (CanvasFromString str).length
      (splitLines str.data).length ∧
    (∀ x y row, (splitLines str.data)[y]? = some row →
      x < (CanvasFromString str).length →
      (CanvasFromString str).cellAt x y
        = some (match row[x]? with
                | some ch => { Fg := 0, Bg := 0, Ch := Int.ofNat ch.toNat }
                | none => Cell.zero)) ∧
    CanvasFromString "AB\nC" = [[⟨0, 0, 65⟩, ⟨0, 0, 67⟩], [⟨0, 0, 66⟩, Cell.zero]] ∧
    ((CanvasFromString "AB\nC").cellAt 0 0).map Cell.Ch = some (Int.ofNat 'A'.toNat) ∧
    ((CanvasFromString "AB\nC").cellAt 1 0).map Cell.Ch = some (Int.ofNat 'B'.toNat) ∧
    ((CanvasFromString "AB\nC").cellAt 0 1).map Cell.Ch = some (Int.ofNat 'C'.toNat) ∧
    (CanvasFromString "AB\nC").cellAt 1 1 = some Cell.zero := by
  have hfold := foldl_maxInt ((splitLines str.data).map (fun l => l.map runeOf)) 0 (le_refl 0)
  have hlen : (CanvasFromString str).length
      = (((splitLines str.data).map (fun l => l.map runeOf)).foldl
          (fun w r => maxInt w r.length) 0).toNat := by
    simp [CanvasFromString]
  obtain ⟨h1, h2, h3⟩ := hfold
  refine ⟨⟨joinLines_splitLines _, splitLines_no_newline _⟩, ⟨?_, ?_⟩, ⟨rfl, ?_⟩, ?_,
    by decide, by decide, by decide, by decide, by decide⟩
  · intro row hrow
    have := h2 (row.map runeOf) (List.mem_map_of_mem _ hrow)
    rw [hlen]
    simp only [List.length_map] at this
    omega
  · rcases h3 with h3 | ⟨r, hr, h3⟩
    · cases hs : splitLines str.data with
      | nil => exact absurd hs (splitLines_ne_nil _)
      | cons row rows =>
        refine ⟨row, List.mem_cons_self _ _, ?_⟩
        have := h2 (row.map runeOf) (List.mem_map_of_mem _ (by rw [hs]; exact List.mem_cons_self _ _))
        rw [hlen, h3]
        simp only [List.length_map] at this
        rw [h3] at this
        omega
    · obtain ⟨row, hrow, hrr⟩ := List.mem_map.mp hr
      refine ⟨row, hrow, ?_⟩
      rw [hlen, h3, ← hrr]
      simp
  · intro col hcol
    simp only [CanvasFromString, List.mem_map, List.mem_range] at hcol
    obtain ⟨_, _, hc⟩ := hcol
    rw [← hc]
    simp
  · intro x y row hrow hx
    have hy : y < (splitLines str.data).length := by
      by_contra hcon
      rw [List.getElem?_eq_none (by omega)] at hrow
      exact Option.noConfusion hrow
    rw [hlen] at hx
    unfold CanvasFromString Canvas.cellAt
    simp only [List.getElem?_map, List.getElem?_range hx, Option.map_some', List.length_map,
      List.getElem?_range hy, List.getD_eq_getElem?_getD, hrow, Option.getD_some]
    by_cases hxr : x < row.length
    · simp [hxr, List.getElem?_eq_getElem hxr, runeOf]
    · simp [hxr, List.getElem?_eq_none (Nat.le_of_not_lt hxr)]

/-- C6.  On a screen with offset `(ox, oy)` and a `W` by `H` canvas,
`RenderCell(x, y, c)` returns without a panic.  With `x+ox` and `y+oy` as the
program computes them (Go `int` addition, which is the mathematical sum
whenever that sum fits in an `int`): when `0 <= x+ox < W` and
`0 <= y+oy < H` the cell at `(x+ox, y+oy)` becomes the merge of `c` into it
and every other cell and field stays as it was; otherwise the screen is left
unchanged. -/
theorem Screen.RenderCell_spec (s : Screen) (W H : Nat) (x y : Int) (c : Cell)
    (hrect : s.canvas.isRect W H) :
    ((0 ≤ wrapInt (x + s.offsetx) ∧ wrapInt (x + s.offsetx) < W ∧
        0 ≤ wrapInt (y + s.offsety) ∧ wrapInt (y + s.offsety) < H) →
      ∃ old cv2,
        s.canvas.cellAt (wrapInt (x + s.offsetx)).toNat (wrapInt (y + s.offsety)).toNat
          = some old ∧
        s.RenderCell x y c = some { s with canvas := cv2 } ∧
        cv2.isRect W H ∧
        ∀ x2 y2, cv2.cellAt x2 y2
          = if x2 = (wrapInt (x + s.offsetx)).toNat ∧ y2 = (wrapInt (y + s.offsety)).toNat
            then some (renderCell old c) else s.canvas.cellAt x2 y2) ∧
    (¬ (0 ≤ wrapInt (x + s.offsetx) ∧ wrapInt (x + s.offsetx) < W ∧
        0 ≤ wrapInt (y + s.offsety) ∧ wrapInt (y + s.offsety) < H) →
      s.RenderCell x y c = some s) ∧
    ((-(2 : Int) ^ 63 ≤ x + s.offsetx ∧ x + s.offsetx < 2 ^ 63 →
        wrapInt (x + s.offsetx) = x + s.offsetx) ∧
     (-(2 : Int) ^ 63 ≤ y + s.offsety ∧ y + s.offsety < 2 ^ 63 →
        wrapInt (y + s.offsety) = y + s.offsety)) := by
  obtain ⟨h1, h2⟩ := Screen.RenderCell_of_isRect s W H x y c hrect
  exact ⟨h1, h2, fun h => wrapInt_of_fits _ h.1 h.2, fun h => wrapInt_of_fits _ h.1 h.2⟩

/-- C6, with offset `ox = 5`: a write at `x = 0`, `y = 0` on a 6 by 1 canvas
lands in column 5, and a write at `x = 7` is dropped. -/
theorem Screen.RenderCell_spec_witness :
    Canvas.isRect (List.replicate 6 [Cell.zero]) 6 1 ∧
    Screen.RenderCell
        { oldCanvas := none, canvas := List.replicate 6 [Cell.zero], level := none,
          Entities := [], width := 6, height := 1, offsetx := 5, offsety := 0 }
        0 0 ⟨1, 2, 3⟩
      = some { oldCanvas := none,
               canvas := List.replicate 5 [Cell.zero] ++ [[⟨1, 2, 3⟩]], level := none,
               Entities := [], width := 6, height := 1, offsetx := 5, offsety := 0 } ∧
    Screen.RenderCell
        { oldCanvas := none, canvas := List.replicate 6 [Cell.zero], level := none,
          Entities := [], width := 6, height := 1, offsetx := 5, offsety := 0 }
        7 0 ⟨1, 2, 3⟩
      = some { oldCanvas := none, canvas := List.replicate 6 [Cell.zero], level := none,
               Entities := [], width := 6, height := 1, offsetx := 5, offsety := 0 } :=
  ⟨by decide, by decide,
   (Screen.RenderCell_spec
      { oldCanvas := none, canvas := List.replicate 6 [Cell.zero], level := none,
        Entities := [], width := 6, height := 1, offsetx := 5, offsety := 0 }
      6 1 7 0 ⟨1, 2, 3⟩ (by decide)).2.1 (by decide)⟩

/-- C7 as stated fails.  The screen holds the entities `1`, `2`, `3`, and
the `Tick` of entity `1` calls `RemoveEntity` on itself.  `Tick(ev)` with a
key event returns after three calls: `Tick(ev)` on entity `1`, on entity `3`
and on entity `3` again.  Entity `2` is not ticked and entity `3` is ticked
twice, so the calls are not one per element in list order. -/
theorem Screen.Tick_skips_after_remove :
    ∃ w2,
      Screen.Tick App.leaver
          { screen := { oldCanvas := none, canvas := [], level := none,
                        Entities := [1, 2, 3], width := 0, height := 0, offsetx := 0,
                        offsety := 0 },
            app := (), trace := [] }
          (some (TcellEvent.key 0)) = some w2 ∧
      w2.trace = [Call.entityTick 1 (some (TcellEvent.key 0)),
                  Call.entityTick 3 (some (TcellEvent.key 0)),
                  Call.entityTick 3 (some (TcellEvent.key 0))] ∧
      w2.trace ≠ [1, 2, 3].map (fun e => Call.entityTick e (some (TcellEvent.key 0))) ∧
      w2.screen.Entities = [2, 3] :=
  ⟨_, rfl, rfl, by decide, rfl⟩

/-- C7, amended.  `Tick(ev)` returns.  It first calls the level's `Tick(ev)`
when a level is attached, whether or not `ev` is nil.  Then, only when `ev`
is not nil, and when no `Tick` of an entity adds or removes an entity during
the call, it calls `Tick(ev)` on every element of `Entities` (the list as the
level's `Tick` left it, which is the list at entry when no level is attached)
exactly once, in list order, and the list is the same afterwards; when `ev`
is nil no entity is ticked. -/
theorem Screen.Tick_calls {α : Type} (A : App α) (w : World α) (ev : Event)
    (hkeep : ∀ e a s, ∀ op ∈ (A.entityTick e ev a s).1, ∃ l, op = SceneOp.SetLevel l) :
    (Screen.tickLevel A w ev).trace
      = w.trace
        ++ (match w.screen.level with
            | some l => [Call.levelTick l ev]
            | none => []) ∧
    (w.screen.level = none → Screen.tickLevel A w ev = w) ∧
    ∃ w2, Screen.Tick A w ev = some w2 ∧
      w2.trace
        = (Screen.tickLevel A w ev).trace
          ++ (if ev ≠ none then
                (Screen.tickLevel A w ev).screen.Entities.map (fun e => Call.entityTick e ev)
              else []) ∧
      w2.screen.Entities = (Screen.tickLevel A w ev).screen.Entities := by
  refine ⟨?_, ?_, ?_⟩
  · unfold Screen.tickLevel
    cases w.screen.level with
    | none => simp
    | some l => exact (tickCall_spec A _ _ (none, w)).2.2
  · intro hl
    unfold Screen.tickLevel
    rw [hl]
  · unfold Screen.Tick
    by_cases hev : ev = none
    · exact ⟨_, by simp [hev], by simp [hev], rfl⟩
    · obtain ⟨w2, h2, ht2, hE2⟩ := rangeEntities_fixed (tickEntity A ev)
        (fun e => Call.entityTick e ev) (Screen.tickLevel A w ev).array
        (by
          intro e st h1 h2
          obtain ⟨a1, a2, a3, a4⟩ := tickCall_keeps A (A.entityTick e ev)
            (Call.entityTick e ev) st (hkeep e _ _)
          exact ⟨_, rfl, by rw [a1, h1], by rw [a2, h2], a4, a3⟩)
        (Screen.tickLevel A w ev).screen.Entities.length 0 (none, Screen.tickLevel A w ev)
        rfl rfl (by simp [World.array])
      refine ⟨w2, by simp [hev, h2], ?_, hE2⟩
      rw [ht2]
      simp [hev, World.array]

/-- C7, amended, on a screen with level `7` and the entities `1` and `2` whose
callbacks call no method of the screen: a key event is ticked on the level,
then on entity `1`, then on entity `2`. -/
theorem Screen.Tick_calls_witness :
    (∀ e a s, ∀ op ∈ (App.idle.entityTick e (some (TcellEvent.key 0)) a s).1,
      ∃ l, op = SceneOp.SetLevel l) ∧
    ∃ w2,
      Screen.Tick App.idle
          { screen := { oldCanvas := none, canvas := [], level := some 7, Entities := [1, 2],
                        width := 0, height := 0, offsetx := 0, offsety := 0 },
            app := (), trace := [] }
          (some (TcellEvent.key 0)) = some w2 ∧
      w2.trace = [Call.levelTick 7 (some (TcellEvent.key 0)),
                  Call.entityTick 1 (some (TcellEvent.key 0)),
                  Call.entityTick 2 (some (TcellEvent.key 0))] := by
  have hk : ∀ e a s, ∀ op ∈ (App.idle.entityTick e (some (TcellEvent.key 0)) a s).1,
      ∃ l, op = SceneOp.SetLevel l := by
    intro e a s op hop
    cases hop
  obtain ⟨_, _, w2, h2, ht, _⟩ := Screen.Tick_calls App.idle
    { screen := { oldCanvas := none, canvas := [], level := some 7, Entities := [1, 2],
                  width := 0, height := 0, offsetx := 0, offsety := 0 },
      app := (), trace := [] }
    (some (TcellEvent.key 0)) hk
  exact ⟨hk, w2, h2, by rw [ht]; rfl⟩

/-- C10.  `RemoveEntity(d)` leaves the screen as it is when no element of
`Entities` is `d`; otherwise it removes the first element that is `d` and
keeps every other element in its place, so the list is one shorter; no other
field changes. -/
theorem Screen.RemoveEntity_spec (s : Screen) (d : Drawable) :
    (d ∉ s.Entities → s.RemoveEntity d = s) ∧
    (d ∈ s.Entities → ∃ pre post, s.Entities = pre ++ d :: post ∧ d ∉ pre ∧
      (s.RemoveEntity d).Entities = pre ++ post ∧
      (s.RemoveEntity d).Entities.length + 1 = s.Entities.length) ∧
    s.RemoveEntity d = { s with Entities := (s.RemoveEntity d).Entities } := by
  unfold Screen.RemoveEntity
  rcases findIdx_entity d s.Entities with ⟨hn, hf⟩ | ⟨pre, post, hl, hpre, hf⟩
  · simp [hf, hn]
  · have hmem : d ∈ s.Entities := by rw [hl]; simp
    have hrem : s.Entities.take pre.length ++ s.Entities.drop (pre.length + 1)
        = pre ++ post := by
      rw [hl]; simp
    rw [hf]
    refine ⟨fun h => absurd hmem h, fun _ => ⟨pre, post, hl, hpre, ?_, ?_⟩, ?_⟩
    · exact hrem
    · show (s.Entities.take pre.length ++ s.Entities.drop (pre.length + 1)).length + 1
        = s.Entities.length
      rw [hrem, hl]; simp; omega
    · rfl

/-- C8, at the failing input.  On a screen of width 0 whose previous canvas is
the canvas without columns (the state one `Draw` leaves a new screen in) the
newly painted canvas is again the canvas without columns, and `Draw` does not
return: the comparison with the previous canvas panics, so nothing is
flushed and `oldCanvas` is not stored. -/
theorem Screen.Draw_zero_width_panics :
    (Screen.drawPaint App.idle
        { screen := { oldCanvas := some [], canvas := [], level := none, Entities := [],
                      width := 0, height := 0, offsetx := 0, offsety := 0 },
          app := (), trace := [] }).map (fun w => w.screen.canvas) = some [] ∧
    (Screen.Draw App.idle
        { screen := { oldCanvas := some [], canvas := [], level := none, Entities := [],
                      width := 0, height := 0, offsetx := 0, offsety := 0 },
          app := (), trace := [] }).isNone = true := by
  exact ⟨rfl, rfl⟩

/-- C9, at the failing input.  A newly constructed screen has width 0 and
height 0 and no previous canvas.  Its first `Draw` flushes (the only driver
call is `Show`) and stores the canvas without columns as `oldCanvas`; its
second `Draw` does not compare the two canvases equal, it panics. -/
theorem Screen.Draw_twice_new_screen :
    ∃ s w1, NewScreenWithScreen = some s ∧ s.oldCanvas = none ∧ s.width = 0 ∧
      Screen.Draw App.idle { screen := s, app := (), trace := [] } = some w1 ∧
      w1.trace = [Call.Show] ∧ w1.screen.oldCanvas = some [] ∧
      Screen.Draw App.idle w1 = none := by
  refine ⟨_, _, rfl, rfl, rfl, rfl, rfl, rfl, rfl⟩

/-- C11.  When the event received in an iteration is a key event whose key
is the configured end key, the iteration ends the loop: the outcome is
`stopped` with the game exactly as it was, so neither `Tick` nor `Draw` was
called, and the loop over any further inputs stops there too. -/
theorem Game.step_end_key {α : Type} (sprintf : String → String) (A : App α) (g : Game α)
    (stamp : String) :
    Game.step sprintf A g
        { polled := Polled.received (some (TcellEvent.key g.input.endKey)), stamp := stamp }
      = some (Outcome.stopped g) ∧
    ∀ rest, Game.loop sprintf A
        ({ polled := Polled.received (some (TcellEvent.key g.input.endKey)),
           stamp := stamp } :: rest) g
      = some (Outcome.stopped g) := by
  have h : Game.step sprintf A g
        { polled := Polled.received (some (TcellEvent.key g.input.endKey)), stamp := stamp }
      = some (Outcome.stopped g) := by
    simp [Game.step]
  refine ⟨h, fun rest => ?_⟩
  simp only [Game.loop, h]

/-- C12.  The dispatch of one iteration.  A key event other than the end key
calls `Tick` with that event; a resize event calls `resize` with the reported
size and not `Tick`; an error event appends one log line and does not call
`Tick`; with nothing in the queue `Tick` is called with the nil event.  `Tick`
returns, and in each case `Draw` is then called once, on the screen as the
call before left it, and the iteration goes on to the next one when `Draw`
returns. -/
theorem Game.step_dispatch {α : Type} (sprintf : String → String) (A : App α) (g : Game α)
    (stamp : String) :
    (∀ k, k ≠ g.input.endKey →
      ∃ w1, Screen.Tick A g.screen (some (TcellEvent.key k)) = some w1 ∧
        Game.step sprintf A g
            { polled := Polled.received (some (TcellEvent.key k)), stamp := stamp }
          = (Screen.Draw A w1).map
              (fun w => Outcome.running
                { g with screen := w,
                         calls := g.calls ++ [GameCall.tick (some (TcellEvent.key k)),
                                              GameCall.draw] })) ∧
    (∀ w h,
      Game.step sprintf A g
          { polled := Polled.received (some (TcellEvent.resize w h)), stamp := stamp }
        = (g.screen.screen.resize w h).bind (fun s =>
            (Screen.Draw A { g.screen with screen := s }).map
              (fun w2 => Outcome.running
                { g with screen := w2,
                         calls := g.calls ++ [GameCall.resize w h, GameCall.draw] }))) ∧
    (∀ msg,
      Game.step sprintf A g
          { polled := Polled.received (some (TcellEvent.error msg)), stamp := stamp }
        = (Screen.Draw A g.screen).map
            (fun w => Outcome.running
              { g with screen := w,
                       logs := g.logs ++ ["[" ++ stamp ++ "] " ++ sprintf msg],
                       calls := g.calls ++ [GameCall.log msg, GameCall.draw] })) ∧
    (∃ w1, Screen.Tick A g.screen none = some w1 ∧
      Game.step sprintf A g { polled := Polled.empty, stamp := stamp }
        = (Screen.Draw A w1).map
            (fun w => Outcome.running
              { g with screen := w,
                       calls := g.calls ++ [GameCall.tick none, GameCall.draw] })) := by
  refine ⟨?_, ?_, ?_, ?_⟩
  · intro k hk
    obtain ⟨w1, h1, _⟩ := Screen.Tick_returns A g.screen (some (TcellEvent.key k))
    refine ⟨w1, h1, ?_⟩
    simp only [Game.step, hk, if_false, h1, Game.drawStep]
    cases Screen.Draw A w1 <;> simp
  · intro w h
    simp only [Game.step]
    cases g.screen.screen.resize w h with
    | none => rfl
    | some s =>
      simp only [Game.drawStep, Option.some_bind]
      cases Screen.Draw A { g.screen with screen := s } <;> simp
  · intro msg
    simp only [Game.step, Game.drawStep, Game.Log]
    cases Screen.Draw A g.screen <;> simp
  · obtain ⟨w1, h1, _⟩ := Screen.Tick_returns A g.screen none
    refine ⟨w1, h1, ?_⟩
    simp only [Game.step, h1, Game.drawStep]
    cases Screen.Draw A w1 <;> simp

/-- C13.  A newly created game has the end key `KeyCtrlC`, and after
`SetEndKey(k)` the end key is `k`: the loop stops on a key event with key `k`
and changes nothing else of the game. -/
theorem Game.endKey_spec {α : Type} (app0 : α) (g : Game α) (k : Key) :
    (∀ g0, NewGame app0 false = some g0 → g0.input.endKey = KeyCtrlC) ∧
    (∃ g0, NewGame app0 false = some g0) ∧
    (g.SetEndKey k).input.endKey = k ∧
    g.SetEndKey k = { g with input := { endKey := k } } ∧
    (∀ sprintf A stamp,
      Game.step sprintf A (g.SetEndKey k)
          { polled := Polled.received (some (TcellEvent.key k)), stamp := stamp }
        = some (Outcome.stopped (g.SetEndKey k))) := by
  refine ⟨?_, ⟨_, rfl⟩, rfl, rfl, ?_⟩
  · intro g0 h
    have e : NewGame app0 false
        = some { screen := { screen := { oldCanvas := none,
                                         canvas := List.replicate 10 (List.replicate 10 Cell.zero),
                                         level := none, Entities := [], width := 0,
                                         height := 0, offsetx := 0, offsety := 0 },
                             app := app0, trace := [] },
                 input := newInput, debug := false, logs := [], calls := [] } := rfl
    rw [e] at h
    rw [← Option.some.inj h]
    rfl
  · intro sprintf A stamp
    simp [Game.step, Game.SetEndKey]

/-- C14, at the failing input.  A newly created game is started on a 2 by 1
terminal and receives a key event with key `KeyEsc`, `SetEndKey` never having
been called: the loop does not stop, the event goes to `Tick`, `Draw` is
called and the loop is still running.  The end key of the new game is
`KeyCtrlC`, not `KeyEsc`. -/
theorem Game.esc_does_not_stop_new_game :
    ∃ g g2, NewGame () false = some g ∧
      g.input.endKey = KeyCtrlC ∧ KeyCtrlC ≠ KeyEsc ∧
      Game.Start id App.idle g false (2, 1) [keyEvent KeyEsc] = some (Outcome.running g2) ∧
      g2.calls = [GameCall.tick (some (TcellEvent.key KeyEsc)), GameCall.draw] := by
  refine ⟨_, _, rfl, rfl, by decide, rfl, rfl⟩

/-- What the loop of a newly created game does with its end key: a first key
event with key `KeyCtrlC` stops the loop before any `Tick` or `Draw`, and a
key event with key `KeyEsc` is passed on to `Tick`, after which `Draw` is
called and the loop goes on. -/
theorem Game.default_end_key {α : Type} (app0 : α) (sprintf : String → String) (A : App α)
    (size : Int × Int) (stamp : String) :
    ∃ g, NewGame app0 false = some g ∧
      (∀ rest,
        Game.Start sprintf A g false size
            ({ polled := Polled.received (some (TcellEvent.key KeyCtrlC)),
               stamp := stamp } :: rest)
          = (g.screen.screen.resize size.1 size.2).map
              (fun s => Outcome.stopped { g with screen := { g.screen with screen := s } })) ∧
      Game.Start sprintf A g false size
          [{ polled := Polled.received (some (TcellEvent.key KeyEsc)), stamp := stamp }]
        = (g.screen.screen.resize size.1 size.2).bind (fun s =>
            (Screen.Tick A { g.screen with screen := s }
                (some (TcellEvent.key KeyEsc))).bind (fun w1 =>
              (Screen.Draw A w1).map
                (fun w => Outcome.running
                  { g with screen := w,
                           calls := g.calls ++ [GameCall.tick (some (TcellEvent.key KeyEsc)),
                                                GameCall.draw] }))) := by
  refine ⟨_, rfl, ?_, ?_⟩
  · intro rest
    simp only [Game.Start, Bool.false_eq_true, if_false]
    cases Screen.resize _ size.1 size.2 with
    | none => rfl
    | some s => simp [Game.loop, Game.step, newInput]
  · simp only [Game.Start, Bool.false_eq_true, if_false]
    cases Screen.resize _ size.1 size.2 with
    | none => rfl
    | some s =>
      have hne : KeyEsc ≠ KeyCtrlC := by decide
      simp only [Game.loop, Game.step, newInput, hne, if_false, Game.drawStep,
        Option.some_bind]
      cases Screen.Tick A _ (some (TcellEvent.key KeyEsc)) with
      | none => rfl
      | some w1 =>
        simp only [Option.some_bind]
        cases Screen.Draw A _ <;> simp [Game.loop]

/-- C15, at the failing input.  After `SetEndKey(KeyEsc)` on a newly created
game a key event with key `KeyEsc` stops the loop: the key does something,
and the event is not passed on to `Tick`. -/
theorem Game.esc_end_key_stops :
    ∃ g, NewGame () false = some g ∧
      Game.step id App.idle (g.SetEndKey KeyEsc) (keyEvent KeyEsc)
        = some (Outcome.stopped (g.SetEndKey KeyEsc)) ∧
      (∀ rest, Game.loop id App.idle (keyEvent KeyEsc :: rest) (g.SetEndKey KeyEsc)
        = some (Outcome.stopped (g.SetEndKey KeyEsc))) ∧
      (g.SetEndKey KeyEsc).calls = [] := by
  refine ⟨_, rfl, rfl, fun rest => rfl, rfl⟩

/-- What the loop does after `SetEndKey(KeyEsc)`: a key event with key
`KeyEsc` stops the loop, and every key event with another key is passed on to
`Tick`, after which `Draw` is called. -/
theorem Game.esc_as_end_key {α : Type} (sprintf : String → String) (A : App α) (g : Game α)
    (stamp : String) (k : Key) :
    Game.step sprintf A (g.SetEndKey KeyEsc)
        { polled := Polled.received (some (TcellEvent.key k)), stamp := stamp }
      = if k = KeyEsc then some (Outcome.stopped (g.SetEndKey KeyEsc))
        else
          (Screen.Tick A g.screen (some (TcellEvent.key k))).bind (fun w1 =>
            (Screen.Draw A w1).map
              (fun w => Outcome.running
                { g.SetEndKey KeyEsc with
                    screen := w,
                    calls := g.calls ++ [GameCall.tick (some (TcellEvent.key k)),
                                         GameCall.draw] })) := by
  by_cases hk : k = KeyEsc
  · simp [Game.step, Game.SetEndKey, hk]
  · simp only [Game.step, Game.SetEndKey, hk, if_false, Game.drawStep]
    cases Screen.Tick A g.screen (some (TcellEvent.key k)) with
    | none => rfl
    | some w1 =>
      simp only [Option.some_bind]
      cases Screen.Draw A w1 <;> simp

/-- C19, at the failing input.  A new screen resized to width 0 and height 5
has non-negative width and height.  One `Draw` returns; two consecutive `Draw`
calls do not complete: the comparison in the second reads column 0 of a
canvas that has no columns, and so does every longer run. -/
theorem Screen.drawN_zero_width_panics :
    ∃ s s1, NewScreenWithScreen = some s ∧ s.resize 0 5 = some s1 ∧
      0 ≤ s1.width ∧ 0 ≤ s1.height ∧
      (Screen.drawN App.idle 1 { screen := s1, app := (), trace := [] }).isSome = true ∧
      Screen.drawN App.idle 2 { screen := s1, app := (), trace := [] } = none ∧
      ∀ n, Screen.drawN App.idle (n + 2) { screen := s1, app := (), trace := [] } = none := by
  refine ⟨_, _, rfl, rfl, by decide, by decide, rfl, rfl, ?_⟩
  intro n
  rfl

/-- C20.  `AddEntity(d)` appends `d` as the last element of `Entities` and
changes nothing else; when `d` is not already in the list, `RemoveEntity(d)`
after `AddEntity(d)` gives the original screen back. -/
theorem Screen.AddEntity_spec (s : Screen) (d : Drawable) :
    (s.AddEntity d).Entities = s.Entities ++ [d] ∧
    s.AddEntity d = { s with Entities := s.Entities ++ [d] } ∧
    (d ∉ s.Entities → (s.AddEntity d).RemoveEntity d = s) := by
  refine ⟨rfl, rfl, ?_⟩
  intro h
  have hf := findIdx_append_self d s.Entities h
  unfold Screen.RemoveEntity Screen.AddEntity
  simp only [hf]
  simp

/-- C17 as stated fails.  A 1 by 1 screen holds the entities `1`, `2`, `3`;
every entity renders its number as the glyph of the one cell, and the `Draw`
of entity `1` first calls `RemoveEntity` on itself.  `Draw` returns after the
painting calls `Draw` on entity `1`, on entity `3` and on entity `3` again,
and a flush: entity `2` is not drawn and entity `3` is drawn twice, so the
calls are not one per element in list order. -/
theorem Screen.Draw_skips_after_remove :
    ∃ w2,
      Screen.Draw App.leaver
          { screen := { oldCanvas := none, canvas := [], level := none,
                        Entities := [1, 2, 3], width := 1, height := 1, offsetx := 0,
                        offsety := 0 },
            app := (), trace := [] } = some w2 ∧
      w2.trace = [Call.entityDraw 1, Call.entityDraw 3, Call.entityDraw 3,
                  Call.SetContent 0 0 3 0 0, Call.Show] ∧
      w2.trace.filter (fun c => c matches Call.entityDraw _)
        ≠ [1, 2, 3].map Call.entityDraw ∧
      w2.screen.canvas = [[⟨0, 0, 3⟩]] ∧ w2.screen.Entities = [2, 3] :=
  ⟨_, rfl, rfl, by decide, rfl, rfl⟩

/-- C17, amended.  Take a screen with `width, height >= 0` whose previous
canvas is nil, or rectangular on a screen with at least one column, and
painters that do not add or remove an entity or change the level during the
call.  Then `Draw` returns.  It starts from a new `width` by `height` canvas
of zero cells, calls the level's `DrawBackground` and `Draw` when a level is
attached and then `Draw` on every element of `Entities` exactly once, in list
order, and after these calls flushes or not.  Each cell of the canvas it
leaves is the merge, in call order, of the cells these painters rendered at
that position into the zero cell; hence in each field it holds the value of
the last painter that wrote a non-zero value there, and zero when none did. -/
theorem Screen.Draw_paints {α : Type} (A : App α) (w : World α) (hA : A.rendersOnly)
    (hw : 0 ≤ w.screen.width) (hh : 0 ≤ w.screen.height)
    (hold : ∀ d, w.screen.oldCanvas = some d →
      0 < w.screen.width ∧ ∃ W2 H2, d.isRect W2 H2) :
    ∃ (w2 : World α) (steps : List (Call × List ScreenOp)),
      Screen.Draw A w = some w2 ∧
      (w2.trace = w.trace ++ paintCalls w.screen ∨
        w2.trace = w.trace ++ paintCalls w.screen ++ flushCalls w2.screen.canvas) ∧
      steps.map Prod.fst = paintCalls w.screen ∧
      (∀ st ∈ steps, issuedBy A st.1 st.2) ∧
      w2.screen.canvas.isRect w.screen.width.toNat w.screen.height.toNat ∧
      (∀ x y, x < w.screen.width.toNat → y < w.screen.height.toNat →
        w2.screen.canvas.cellAt x y
          = some ((hits (steps.map Prod.snd).flatten w.screen.offsetx w.screen.offsety
                    x y).foldl renderCell Cell.zero)) ∧
      (∀ x y cell, x < w.screen.width.toNat → y < w.screen.height.toNat →
        w2.screen.canvas.cellAt x y = some cell →
        cell.Ch
          = (match (hits (steps.map Prod.snd).flatten w.screen.offsetx w.screen.offsety
                      x y).reverse.find? (fun c => decide (c.Ch ≠ 0)) with
             | some c => c.Ch
             | none => 0) ∧
        cell.Fg
          = (match (hits (steps.map Prod.snd).flatten w.screen.offsetx w.screen.offsety
                      x y).reverse.find? (fun c => decide (c.Fg ≠ 0)) with
             | some c => c.Fg
             | none => 0) ∧
        cell.Bg
          = (match (hits (steps.map Prod.snd).flatten w.screen.offsetx w.screen.offsety
                      x y).reverse.find? (fun c => decide (c.Bg ≠ 0)) with
             | some c => c.Bg
             | none => 0)) := by
  have hnew := NewCanvas_of_nonneg _ _ hw hh
  obtain ⟨w1, steps, h1, hr1, _, ht1, hs1, hi1, ho1⟩ :=
    Screen.paintAll_steps A hA
      { w with screen := { w.screen with
          canvas := List.replicate w.screen.width.toNat
            (List.replicate w.screen.height.toNat Cell.zero) } }
      w.screen.width.toNat w.screen.height.toNat (isRect_replicate _ _)
  have hdp : Screen.drawPaint A w = some w1 := by
    unfold Screen.drawPaint
    rw [hnew]
    exact h1
  obtain ⟨p1, w2, hp1, hD, hsc, _, htr⟩ := Screen.Draw_of_shape A hA w hw hh hold
  have e1 : p1 = w1 := by
    rw [hdp] at hp1; exact (Option.some.inj hp1).symm
  subst e1
  have hcv : w2.screen.canvas = p1.screen.canvas := by rw [hsc]
  have hcell : ∀ x y, x < w.screen.width.toNat → y < w.screen.height.toNat →
      w2.screen.canvas.cellAt x y
        = some ((hits (steps.map Prod.snd).flatten w.screen.offsetx w.screen.offsety
                  x y).foldl renderCell Cell.zero) := by
    intro x y hx hy
    obtain ⟨t, ht, hfin⟩ :=
      runOps_cells _ _ _ _ p1.screen (isRect_replicate _ _) ho1 x y hx hy
    have hz : t = Cell.zero := by
      have hz2 := cellAt_replicate w.screen.width.toNat w.screen.height.toNat x y hx hy
      have ht2 : Canvas.cellAt (List.replicate w.screen.width.toNat
          (List.replicate w.screen.height.toNat Cell.zero)) x y = some t := ht
      rw [hz2] at ht2
      exact (Option.some.inj ht2).symm
    rw [hcv, hfin, hz]
  refine ⟨w2, steps, hD, ?_, hs1, hi1, by rw [hcv]; exact hr1, hcell, ?_⟩
  · rw [htr, hcv]
    have ht1b : p1.trace = w.trace ++ paintCalls w.screen := ht1
    by_cases hc : some p1.screen.canvas = w.screen.oldCanvas
    · left; rw [if_pos hc, ht1b]
    · right; rw [if_neg hc, ht1b]
  · intro x y cell hx hy hc
    rw [hcell x y hx hy] at hc
    have e := Option.some.inj hc
    obtain ⟨f1, f2, f3⟩ := foldl_renderCell_fields
      (hits (steps.map Prod.snd).flatten w.screen.offsetx w.screen.offsety x y) Cell.zero
    rw [← e]
    exact ⟨f1, f2, f3⟩

/-- C17, amended, on a 2 by 1 screen with a level `7` and the entities `1` and
`2`, all painting cell `(0, 0)`: the level's foreground writes glyph 65 and
colour 3, entity `1` writes glyph 66, entity `2` writes background 4; `Draw`
returns and the cell ends as glyph 66 (the later glyph), foreground 3 and
background 4. -/
theorem Screen.Draw_paints_witness :
    App.layers.rendersOnly ∧
    ∃ w2,
      Screen.Draw App.layers
          { screen := { oldCanvas := none, canvas := [], level := some 7, Entities := [1, 2],
                        width := 2, height := 1, offsetx := 0, offsety := 0 },
            app := (), trace := [] } = some w2 ∧
      w2.screen.canvas = [[⟨3, 4, 66⟩], [Cell.zero]] ∧
      w2.trace = [Call.levelDrawBackground 7, Call.levelDraw 7, Call.entityDraw 1,
                  Call.entityDraw 2, Call.SetContent 0 0 66 3 4, Call.SetContent 1 0 0 0 0,
                  Call.Show] := by
  have hA : App.layers.rendersOnly := by
    refine ⟨?_, ?_, ?_⟩
    · intro l a s op hop
      cases hop
    · intro l a s op hop
      rw [List.mem_singleton.mp hop]
      rfl
    · intro e a s op hop
      by_cases he : e = 1
      · simp only [App.layers, he, if_true] at hop
        rw [List.mem_singleton.mp hop]
        rfl
      · simp only [App.layers, he, if_false] at hop
        rw [List.mem_singleton.mp hop]
        rfl
  obtain ⟨w2, _, h2, _⟩ := Screen.Draw_paints App.layers
    { screen := { oldCanvas := none, canvas := [], level := some 7, Entities := [1, 2],
                  width := 2, height := 1, offsetx := 0, offsety := 0 },
      app := (), trace := [] } hA (by decide) (by decide)
    (by intro d hd; exact Option.noConfusion hd)
  refine ⟨hA, w2, h2, ?_⟩
  have e : Screen.Draw App.layers
      { screen := { oldCanvas := none, canvas := [], level := some 7, Entities := [1, 2],
                    width := 2, height := 1, offsetx := 0, offsety := 0 },
        app := (), trace := [] }
      = some { screen := { oldCanvas := some [[⟨3, 4, 66⟩], [Cell.zero]],
                           canvas := [[⟨3, 4, 66⟩], [Cell.zero]],
                           level := some 7, Entities := [1, 2], width := 2, height := 1,
                           offsetx := 0, offsety := 0 },
               app := (),
               trace := [Call.levelDrawBackground 7, Call.levelDraw 7, Call.entityDraw 1,
                         Call.entityDraw 2, Call.SetContent 0 0 66 3 4,
                         Call.SetContent 1 0 0 0 0, Call.Show] } := by rfl
  rw [e] at h2
  rw [← Option.some.inj h2]
  exact ⟨rfl, rfl⟩

/-- C18.  `NewCanvas(w, h)` and `CanvasFromString` return rectangular
canvases.  On a screen whose canvas is rectangular (as the constructor leaves
it), once `resize(w, h)` has returned, every sequence of `resize`, `Draw`,
`RenderCell`, `Tick`, `AddEntity`, `RemoveEntity` and `setOffset` that runs
leaves the canvas with exactly `width` columns of `height` cells each.  The
last part runs such a sequence on a new screen. -/
theorem Screen.canvas_shape :
    (∀ w h cv, NewCanvas w h = some cv → cv.isRect w.toNat h.toNat) ∧
    (∀ str, (CanvasFromString str).isRect (CanvasFromString str).length
      (splitLines str.data).length) ∧
    (∀ (α : Type) (A : App α) (ss0 ss1 ss2 : Session α) (W0 H0 : Nat) (w h : Int)
        (ms : List Method),
      ss0.world.screen.canvas.isRect W0 H0 →
      (Method.resize w h).apply A ss0 = some ss1 →
      runMethods A ms ss1 = some ss2 →
      ss2.world.screen.canvas.isRect ss2.world.screen.width.toNat
        ss2.world.screen.height.toNat) ∧
    (∃ s, NewScreenWithScreen = some s ∧ s.canvas.isRect 10 10 ∧
      (runMethods App.idle
          [Method.resize 3 2, Method.Draw, Method.RenderCell 1 1 ⟨1, 2, 3⟩,
           Method.Tick none, Method.AddEntity 5, Method.RemoveEntity 5,
           Method.setOffset 1 0, Method.RenderCell 0 0 ⟨4, 5, 6⟩, Method.Draw,
           Method.resize 1 3, Method.RenderCell (-1) 2 ⟨7, 8, 9⟩]
          { world := { screen := s, app := (), trace := [] }, shared := false }).map
        (fun ss => (ss.world.screen.width, ss.world.screen.height, ss.world.screen.canvas))
        = some (1, 3, [[Cell.zero, Cell.zero, ⟨7, 8, 9⟩]])) := by
  refine ⟨NewCanvas_isRect, CanvasFromString_isRect, ?_, ?_⟩
  · intro α A ss0 ss1 ss2 W0 H0 w h ms hrect hres hrun
    have h1 : ss1.world.screen.shapeOk := by
      simp only [Method.apply] at hres
      cases hr : ss0.world.screen.resize w h with
      | none => rw [hr] at hres; exact Option.noConfusion hres
      | some s =>
        rw [hr] at hres
        rw [← Option.some.inj hres]
        exact Screen.resize_shapeOk ss0.world.screen s w h W0 H0 hrect hr
    exact runMethods_shapeOk A ms ss1 ss2 h1 hrun
  · exact ⟨_, rfl, by decide, by rfl⟩

end Termloop
